import Mathlib

/-!
# Verification of the music-server indexing engine

Shallow embedding of `src/cdn/index.rs`: the catalog data model (`Index`,
`Artist`, `Album`, `Song`), the insertion algorithms (`get_or_insert_artist`,
`get_or_insert_album`, `insert_song`), cover rating and attachment
(`rate_cover`, `insert_cover`, `make_cover_path`), the directory-walk
state machine of `Index::index`, and the post-walk sorting and fallback
cover-generation passes.

Modelling conventions:
- A filesystem path is its list of components (`List String`); `parentOf`
  and `fileName` model `Path::parent` and `Path::file_name`.
- Rust `HashMap<String, _>` becomes an association list `List (String × _)`
  with `alLookup` / `alInsert`; only lookup-observable behaviour is used.
- `Arc<RwLock<Song>>` sharing between an album's `songs` vector and its
  `songs_by_name` map is modelled by an arena: the catalog carries a
  `songHeap : List Song` and both containers store heap indices.
- Fallible Rust code (`Result`) becomes `Except Err`; `expect`/panic sites
  that the surrounding code makes unreachable are modelled as `Err` values
  marked "BUG:" exactly as the source message does.
- External collaborators (ffmpeg probing, frame decoding) are parameters:
  `probe` returns the `(title?, album?, artist?, track?)` quadruple that the
  `spawn_blocking` closure in `Song::parse` produces, and the cover
  generator takes an oracle saying whether a song file yields a video frame.
-/

deriving instance DecidableEq for Except

namespace MusicServer

/-- Error type modelling `ErrorKind::IndexingError(Option<String>, &str)`. -/
inductive Err where
  | indexingError (path : Option String) (desc : String)
deriving DecidableEq

/-! ## Strings and paths -/

/-- ASCII alphanumeric test, as in the closure inside `sanitize`. -/
def isAlnumAscii (c : Char) : Bool :=
  ('A' ≤ c && c ≤ 'Z') || ('a' ≤ c && c ≤ 'z') || ('0' ≤ c && c ≤ '9')

/-- `fn sanitize(s: &str) -> String`: replace every character outside
`[A-Za-z0-9]` by `-`, then ASCII-lowercase. -/
def sanitize (s : String) : String :=
  ((s.data.map (fun c => if isAlnumAscii c then c else '-')).map Char.toLower).asString

/-- Substring containment on character lists (Rust `str::contains` with a
string pattern). -/
def listContainsSub (s pat : List Char) : Bool :=
  (List.range (s.length + 1)).any (fun i => pat.isPrefixOf (s.drop i))

/-- Rust `str::contains(pat)`, case-sensitive substring search. -/
def containsSubstr (s pat : String) : Bool :=
  listContainsSub s.data pat.data

/-- A filesystem path, as its list of components. -/
abbrev MPath := List String

/-- `Path::parent`: drop the final component; `None` on an empty path. -/
def parentOf (p : MPath) : Option MPath :=
  if p.isEmpty then none else some p.dropLast

/-- `Path::file_name`: the final component, if any. -/
def fileName (p : MPath) : Option String :=
  p.getLast?

/-- `Path::to_string_lossy` under the component model: join with `/`. -/
def pathToString (p : MPath) : String :=
  String.intercalate "/" p

/-- `fn paths_eq(p1: &Option<PathBuf>, p2: &Option<&Path>) -> bool`. -/
def paths_eq (p1 p2 : Option MPath) : Bool :=
  match p1, p2 with
  | none, p2 => p2.isNone
  | some _, none => false
  | some a, some b => a == b

/-- `Path::strip_prefix(base)` under the component model. -/
def stripBase (path base : MPath) : Option MPath :=
  if base.isPrefixOf path then some (path.drop base.length) else none

/-- Uppercase hex digit, as emitted by the `percent_encoding` crate. -/
def hexDigit (n : Nat) : Char :=
  if n < 10 then Char.ofNat ('0'.toNat + n) else Char.ofNat ('A'.toNat + n - 10)

/-- UTF-8 bytes of a character (for percent-encoding non-ASCII input). -/
def utf8Bytes (c : Char) : List Nat :=
  let n := c.toNat
  if n < 0x80 then [n]
  else if n < 0x800 then
    [0xC0 ||| (n >>> 6), 0x80 ||| (n &&& 0x3F)]
  else if n < 0x10000 then
    [0xE0 ||| (n >>> 12), 0x80 ||| ((n >>> 6) &&& 0x3F), 0x80 ||| (n &&& 0x3F)]
  else
    [0xF0 ||| (n >>> 18), 0x80 ||| ((n >>> 12) &&& 0x3F),
     0x80 ||| ((n >>> 6) &&& 0x3F), 0x80 ||| (n &&& 0x3F)]

/-- Membership in `PATH_SET`'s complement: ASCII alphanumerics plus the
characters removed from `NON_ALPHANUMERIC` (`/`, `-`, `_`, `.`, `+`). -/
def isPathSafe (c : Char) : Bool :=
  isAlnumAscii c || c == '/' || c == '-' || c == '_' || c == '.' || c == '+'

/-- `utf8_percent_encode(s, &PATH_SET)`. -/
def percentEncode (s : String) : String :=
  String.join (s.data.map (fun c =>
    if isPathSafe c then String.singleton c
    else String.join ((utf8Bytes c).map (fun b =>
      ⟨['%', hexDigit (b / 16), hexDigit (b % 16)]⟩))))

/-- `fn find_url(path, base, files_url) -> Result<String>`. -/
def find_url (path base : MPath) (files_url : String) : Except Err String :=
  match stripBase path base with
  | none => .error (.indexingError (some (pathToString path)) "formatting url")
  | some stripped =>
    .ok (files_url ++ "/" ++ percentEncode (pathToString stripped))

/-! ## Association lists (modelling `HashMap<String, _>`) -/

/-- `HashMap::get`. -/
def alLookup (l : List (String × α)) (k : String) : Option α :=
  (l.find? (fun p => p.1 == k)).map Prod.snd

/-- `HashMap::contains_key`. -/
def alContains (l : List (String × α)) (k : String) : Bool :=
  (alLookup l k).isSome

/-- `HashMap::insert`: replace the value at an existing key, otherwise add. -/
def alInsert (l : List (String × α)) (k : String) (v : α) : List (String × α) :=
  if alContains l k then l.map (fun p => if p.1 == k then (k, v) else p)
  else l ++ [(k, v)]

/-- `HashMap<String, Arc<_>>::insert` where only the key set matters
(the value is a shared reference identified by the key). -/
def keyInsert (l : List String) (k : String) : List String :=
  if l.contains k then l else l ++ [k]

/-! ## Catalog data model (`struct Index` and entity structs) -/

/-- `struct ArtistRef { name, unique_name }`. -/
structure ArtistRef where
  name : String
  unique_name : String
deriving DecidableEq

/-- `struct AlbumRef { name, unique_name }`. -/
structure AlbumRef where
  name : String
  unique_name : String
deriving DecidableEq

/-- `struct Artist`; `albums` holds the keys of the shared albums it
back-references. -/
structure Artist where
  name : String
  unique_name : String
  albums : List String
  cover_url : Option String
deriving DecidableEq

/-- `struct Song`. -/
structure Song where
  name : String
  unique_name : String
  album : AlbumRef
  artists : List ArtistRef
  track : Option Nat
  cover_url : Option String
  url : String
  path : MPath
deriving DecidableEq

/-- `struct Album`; `songs` and `songs_by_name` store indices into the
catalog's song arena, modelling the shared `Arc<RwLock<Song>>`. -/
structure Album where
  name : String
  unique_name : String
  artists : List ArtistRef
  songs : List (Option Nat)
  songs_by_name : List (String × Nat)
  cover_url : Option String
  cover_rating : Nat
  tracked : Bool
  path : MPath
deriving DecidableEq

/-- `struct Index`, plus the song arena `songHeap` for shared songs. -/
structure Index where
  artists : List (String × Artist)
  artist_list : List String
  albums : List (String × Album)
  album_list : List String
  songHeap : List Song
deriving DecidableEq

/-- The freshly created `Index` at the top of `Index::index`. -/
def emptyIndex : Index := ⟨[], [], [], [], []⟩

/-! ## Cover rating (`Index::rate_cover`) and cover paths -/

/-- `fn rate_cover(path: &Path) -> Result<u32>`: base 1, +100 if the file
name contains `cover`, +20 if it contains `small`. -/
def rate_cover (path : MPath) : Except Err Nat :=
  match fileName path with
  | none => .error (.indexingError (some (pathToString path)) "rating cover")
  | some nm =>
    let v1 := 1
    let v2 := if containsSubstr nm "cover" then v1 + 100 else v1
    let v3 := if containsSubstr nm "small" then v2 + 20 else v2
    .ok v3

/-- `fn make_cover_path(song_path: &Path) -> Result<PathBuf>`: the song's
file name plus the fixed generated-cover suffix, in the song's directory.
(The source `expect`s a file name; that panic site is modelled as a
"BUG:"-tagged error.) -/
def make_cover_path (song_path : MPath) : Except Err MPath :=
  match fileName song_path with
  | none => .error (.indexingError none "BUG: Encountered song with no file name")
  | some f =>
    let filename := f ++ "-ms1-cover-small-generated.jpg"
    match parentOf song_path with
    | none => .error (.indexingError (some (pathToString song_path))
      "Getting song parent directory for cover generation")
    | some d => .ok (d ++ [filename])

/-- The per-song update loop inside `Index::insert_cover`: write the new
cover url through to every song slot of the album's `songs` vector. -/
def updateSongs (songs : List (Option Nat)) (u : Option String) (heap : List Song) :
    List Song :=
  songs.foldl (fun h oid =>
    match oid with
    | some i =>
      match h[i]? with
      | some s => h.set i { s with cover_url := u }
      | none => h
    | none => h) heap

/-- `async fn insert_cover(album, path, base, files_url) -> Result<()>`:
replace the album's cover and write through to its songs when the candidate
rates strictly higher. -/
def insert_cover (album : Album) (heap : List Song) (path base : MPath)
    (files_url : String) : Except Err (Album × List Song) :=
  match rate_cover path with
  | .error e => .error e
  | .ok rating =>
    if album.cover_rating < rating then
      match find_url path base files_url with
      | .error e => .error e
      | .ok u =>
        .ok ({ album with cover_url := some u, cover_rating := rating },
             updateSongs album.songs (some u) heap)
    else .ok (album, heap)

/-! ## Catalog insertion (`get_or_insert_artist`, `get_or_insert_album`,
`insert_song`) -/

/-- The `while self.artists.contains_key(&found_name)` probe loop of
`get_or_insert_artist`. Returns `.inl u` when an entry with matching
display name is found (its stored `unique_name`), `.inr k` when the first
free suffixed key `k` is reached. `fuel` bounds the probe count; the Rust
loop terminates because the map is finite, and every call supplies
`artists.length + 1` which always reaches a free key. -/
def probeArtist (artists : List (String × Artist)) (name base : String) :
    Nat → Nat → Sum String String
  | _, 0 => .inr ""
  | i, fuel + 1 =>
    let found_name := base ++ "-" ++ toString i
    match alLookup artists found_name with
    | none => .inr found_name
    | some a =>
      if a.name = name then .inl a.unique_name
      else probeArtist artists name base (i + 1) fuel

/-- `async fn get_or_insert_artist(&mut self, name: &str) -> String`. -/
def get_or_insert_artist (idx : Index) (name : String) : String × Index :=
  let unique := sanitize name
  match alLookup idx.artists unique with
  | some a =>
    if a.name = name then (a.unique_name, idx)
    else
      match probeArtist idx.artists name unique 1 (idx.artists.length + 1) with
      | .inl u => (u, idx)
      | .inr freeKey =>
        let artist : Artist := ⟨name, freeKey, [], none⟩
        (freeKey, { idx with artists := alInsert idx.artists freeKey artist })
  | none =>
    let artist : Artist := ⟨name, unique, [], none⟩
    (unique, { idx with artists := alInsert idx.artists unique artist })

/-- The artist-accretion loop inside `get_or_insert_album` when an album
with an equal display name is found at key `key`: append each incoming
artist not yet attached and reciprocally link the album into that artist's
album map. (The source indexes `self.artists[..]`, panicking when the
artist is missing; callers always resolve artists first, so the missing
case is modelled as a no-op.) -/
def accreteArtists (album : Album) (key : String) (arefs : List ArtistRef)
    (artists : List (String × Artist)) : Album × List (String × Artist) :=
  arefs.foldl (fun acc aref =>
    if (acc.1.artists.find? (fun a => a.unique_name == aref.unique_name)).isSome then
      acc
    else
      let alb := { acc.1 with artists := acc.1.artists ++ [aref] }
      let arts :=
        match alLookup acc.2 aref.unique_name with
        | some art =>
          alInsert acc.2 aref.unique_name { art with albums := keyInsert art.albums key }
        | none => acc.2
      (alb, arts)) (album, artists)

/-- Link a newly created album into each contributing artist's album map
(the loop after `self.albums.insert(...)` in `get_or_insert_album`). -/
def linkArtists (arefs : List ArtistRef) (key : String)
    (artists : List (String × Artist)) : List (String × Artist) :=
  arefs.foldl (fun arts aref =>
    match alLookup arts aref.unique_name with
    | some art => alInsert arts aref.unique_name { art with albums := keyInsert art.albums key }
    | none => arts) artists

/-- The `while self.albums.contains_key(&found_name)` probe loop of
`get_or_insert_album`: on a display-name match, perform artist accretion at
that key and return the updated maps (`.inl`); otherwise return the first
free suffixed key (`.inr`). -/
def probeAlbum (albums : List (String × Album)) (artists : List (String × Artist))
    (name base : String) (arefs : List ArtistRef) :
    Nat → Nat → Sum (String × List (String × Album) × List (String × Artist)) String
  | _, 0 => .inr ""
  | i, fuel + 1 =>
    let found_name := base ++ "-" ++ toString i
    match alLookup albums found_name with
    | none => .inr found_name
    | some found =>
      if found.name = name then
        let (alb, arts) := accreteArtists found found_name arefs artists
        .inl (found_name, alInsert albums found_name alb, arts)
      else probeAlbum albums artists name base arefs (i + 1) fuel

/-- `async fn get_or_insert_album(&mut self, name, artists, path)`;
returns the key of the found-or-created album (the source returns the
shared `Arc`, whose stored `unique_name` equals this key). -/
def get_or_insert_album (idx : Index) (name : String) (arefs : List ArtistRef)
    (path : MPath) : String × Index :=
  let unique := sanitize name
  match alLookup idx.albums unique with
  | some found =>
    if found.name = name then
      let (alb, arts) := accreteArtists found unique arefs idx.artists
      (unique, { idx with albums := alInsert idx.albums unique alb, artists := arts })
    else
      match probeAlbum idx.albums idx.artists name unique arefs 1 (idx.albums.length + 1) with
      | .inl (k, albums2, artists2) =>
        (k, { idx with albums := albums2, artists := artists2 })
      | .inr freeKey =>
        let album : Album := ⟨name, freeKey, arefs, [], [], none, 0, false, path⟩
        (freeKey, { idx with albums := alInsert idx.albums freeKey album,
                             artists := linkArtists arefs freeKey idx.artists })
  | none =>
    let album : Album := ⟨name, unique, arefs, [], [], none, 0, false, path⟩
    (unique, { idx with albums := alInsert idx.albums unique album,
                        artists := linkArtists arefs unique idx.artists })

/-- The artist-resolution loop at the top of `insert_song`: rewrite each
`ArtistRef`'s `unique_name` via `get_or_insert_artist`. -/
def resolveArtists (idx : Index) (arefs : List ArtistRef) :
    List ArtistRef × Index :=
  arefs.foldl (fun acc aref =>
    let r := get_or_insert_artist acc.2 aref.name
    (acc.1 ++ [{ aref with unique_name := r.1 }], r.2)) ([], idx)

/-- The song value after `insert_song` has set `song.album.unique_name`
and copied the album's current cover url onto the song. -/
def finishSong (song : Song) (arefs : List ArtistRef) (albumKey : String)
    (albumCover : Option String) : Song :=
  { song with
    artists := arefs,
    album := { song.album with unique_name := albumKey },
    cover_url := match albumCover with
      | some u => some u
      | none => song.cover_url }

/-- The conditional `songs.resize(track, None)` in `insert_song`: grow the
sparse track vector so slot `t - 1` exists. -/
def growSongs (songs : List (Option Nat)) (t : Nat) : List (Option Nat) :=
  if songs.length ≤ t - 1 then songs ++ List.replicate (t - songs.length) none
  else songs

/-- `async fn insert_song(&mut self, song) -> Result<Arc<RwLock<Song>>>`;
returns the arena index of the inserted song. -/
def insert_song (idx : Index) (song : Song) : Except Err (Nat × Index) :=
  let ra := resolveArtists idx song.artists
  match parentOf song.path with
  | none => .error (.indexingError (some (pathToString song.path)) "getting song path")
  | some dir =>
    let q := get_or_insert_album ra.2 song.album.name ra.1 dir
    match alLookup q.2.albums q.1 with
    | none => .error (.indexingError none "BUG: Missing newly inserted album")
    | some album =>
      let song2 := finishSong song ra.1 q.1 album.cover_url
      let sid := q.2.songHeap.length
      match song2.track with
      | some t =>
        let album2 :=
          { album with
            tracked := true,
            songs := (growSongs album.songs t).set (t - 1) (some sid),
            songs_by_name := alInsert album.songs_by_name song2.unique_name sid }
        .ok (sid, { q.2 with albums := alInsert q.2.albums q.1 album2,
                             songHeap := q.2.songHeap ++ [song2] })
      | none =>
        let album2 :=
          { album with
            songs := album.songs ++ [some sid],
            songs_by_name := alInsert album.songs_by_name song2.unique_name sid }
        .ok (sid, { q.2 with albums := alInsert q.2.albums q.1 album2,
                             songHeap := q.2.songHeap ++ [song2] })

/-! ## `Song::parse` -/

/-- Index of the last `.` in a character list, if any. -/
def lastDotIdx (cs : List Char) : Option Nat :=
  ((cs.enum.filter (fun p => p.2 == '.')).map Prod.fst).getLast?

/-- The `FILENAME_STRIP_SUFFIX` regex `(?P<name>.+)\.[^.]+$` applied to a
file name: the (greedy) `name` group is everything before the last dot,
provided the name part is nonempty and at least one character follows the
dot (those trailing characters are dot-free by maximality). `none` when
the regex does not match. -/
def stripExt (s : String) : Option String :=
  match lastDotIdx s.data with
  | none => none
  | some i =>
    if 1 ≤ i && i + 1 < s.data.length then some ((s.data.take i).asString)
    else none

/-- Longest match of the `ARTIST_SPLIT_PATTERN` regex `( +& +| *, +)` at
the head of the input (first alternative preferred, greedy spacing), as a
matched-prefix length. -/
def matchSep (cs : List Char) : Option Nat :=
  let k := (cs.takeWhile (fun c => c == ' ')).length
  let rest1 := cs.drop k
  match rest1 with
  | '&' :: rest2 =>
    let m := (rest2.takeWhile (fun c => c == ' ')).length
    if 1 ≤ k && 1 ≤ m then some (k + 1 + m) else matchSepComma cs k
  | _ => matchSepComma cs k
where
  /-- Second alternative ` *, +`: `k` leading spaces already consumed. -/
  matchSepComma (cs : List Char) (k : Nat) : Option Nat :=
    match cs.drop k with
    | ',' :: rest2 =>
      let m := (rest2.takeWhile (fun c => c == ' ')).length
      if 1 ≤ m then some (k + 1 + m) else none
    | _ => none

/-- `ARTIST_SPLIT_PATTERN.split`: scan left to right, breaking the string
at each leftmost separator match. `fuel` bounds the scan (the input length
suffices; each step consumes at least one character). -/
def splitArtistsAux (fuel : Nat) (cs acc : List Char) : List String :=
  match fuel with
  | 0 => [acc.reverse.asString]
  | fuel + 1 =>
    match cs with
    | [] => [acc.reverse.asString]
    | c :: rest =>
      match matchSep (c :: rest) with
      | some len => acc.reverse.asString :: splitArtistsAux fuel ((c :: rest).drop len) []
      | none => splitArtistsAux fuel rest (c :: acc)

/-- Split an artist metadata string on `" & "` / `", "` separators. -/
def splitArtists (s : String) : List String :=
  splitArtistsAux s.data.length s.data []

/-- The `(title?, album?, artist?, track?)` quadruple produced by the
`spawn_blocking` closure of `Song::parse` (container metadata merged with
per-stream metadata, track string parsed and zero filtered out). The
metadata dictionaries come from ffmpeg, an external collaborator, so the
closure's result is the model's oracle boundary. -/
structure ProbeData where
  title : Option String
  album : Option String
  artist : Option String
  track : Option Nat
deriving DecidableEq

/-- `async fn Song::parse(path, base, files_url) -> Result<Song>`, with the
ffmpeg probing step abstracted as `probe`. -/
def parseSong (probe : MPath → Except Err ProbeData) (path base : MPath)
    (files_url : String) : Except Err Song :=
  match find_url path base files_url with
  | .error e => .error e
  | .ok url =>
    match probe path with
    | .error e => .error e
    | .ok md =>
      let title0 : Option String :=
        match md.title with
        | some t => some t
        | none => (fileName path).bind stripExt
      let title := title0.getD "Unknown"
      .ok { name := title,
            unique_name := sanitize title,
            album := ⟨md.album.getD "Unknown", ""⟩,
            artists := (splitArtists (md.artist.getD "Unknown")).map (fun s => ⟨s, ""⟩),
            track := md.track,
            cover_url := none,
            url := url,
            path := path }

/-! ## The directory-walk state machine of `Index::index` -/

/-- The configuration `Index::index` receives: the four include/exclude
pattern sets as opaque predicates over path strings, the probing oracle,
the base directory and the base url. -/
structure WalkCfg where
  media_include : String → Bool
  media_exclude : String → Bool
  cover_include : String → Bool
  cover_exclude : String → Bool
  probe : MPath → Except Err ProbeData
  base : MPath
  files_url : String

/-- `media_include.is_match(&path_str) && !media_exclude.is_match(&path_str)`. -/
def isMediaPath (cfg : WalkCfg) (p : MPath) : Bool :=
  cfg.media_include (pathToString p) && !cfg.media_exclude (pathToString p)

/-- `cover_include.is_match(&path_str) && !cover_exclude.is_match(&path_str)`. -/
def isCoverPath (cfg : WalkCfg) (p : MPath) : Bool :=
  cfg.cover_include (pathToString p) && !cfg.cover_exclude (pathToString p)

/-- One entry of the `walked` vector: a successfully read path, or a
walkdir error entry (which the loop logs and skips). -/
inductive WalkEntry where
  | ok (path : MPath)
  | err
deriving DecidableEq

/-- The mutable state threaded through the browse loop of `Index::index`.
`attLog` is a ghost event log recording each `insert_cover` call made
during the walk as `(album key, cover path)`; it changes no behaviour and
exists to state temporal properties of cover attachment. -/
structure WalkState where
  index : Index
  song_count : Nat
  previous_parent : Option MPath
  previous_song_parent : Option MPath
  previous_album : Option String
  found_covers : List MPath
  attLog : List (String × MPath)
deriving DecidableEq

/-- The state at the top of `Index::index`. -/
def initState : WalkState := ⟨emptyIndex, 0, none, none, none, [], []⟩

/-- Look up an album by key and run `insert_cover` on it, writing the
result back (models `index.albums[key].write()` followed by the call; the
missing-key panic of the source's indexing is a "BUG:" error). -/
def attachCover (cfg : WalkCfg) (idx : Index) (albumKey : String) (cover : MPath) :
    Except Err Index :=
  match alLookup idx.albums albumKey with
  | none => .error (.indexingError none "BUG: missing album for cover")
  | some album =>
    match insert_cover album idx.songHeap cover cfg.base cfg.files_url with
    | .error e => .error e
    | .ok (album2, heap2) =>
      .ok { idx with albums := alInsert idx.albums albumKey album2, songHeap := heap2 }

/-- `for cover in found_covers.drain(..) { ... insert_cover ... }`:
attach every buffered cover to the album of the just-inserted song, in
discovery order, draining the buffer. -/
def flushCovers (cfg : WalkCfg) (st : WalkState) (albumKey : String) :
    List MPath → Except Err WalkState
  | [] => .ok { st with found_covers := [] }
  | c :: rest =>
    match attachCover cfg st.index albumKey c with
    | .error e => .error e
    | .ok idx2 =>
      flushCovers cfg { st with index := idx2, attLog := st.attLog ++ [(albumKey, c)] }
        albumKey rest

/-- The body of the browse loop of `Index::index` for one walked entry. -/
def browseStep (cfg : WalkCfg) (st : WalkState) (entry : WalkEntry) :
    Except Err WalkState :=
  match entry with
  | .err => .ok st
  | .ok path =>
    let fc := if paths_eq st.previous_parent (parentOf path) then st.found_covers else []
    let st1 := { st with found_covers := fc, previous_parent := parentOf path }
    if isMediaPath cfg path then
      match parseSong cfg.probe path cfg.base cfg.files_url with
      | .error e => .error e
      | .ok song =>
        match insert_song st1.index song with
        | .error e => .error e
        | .ok (sid, idx1) =>
          match idx1.songHeap[sid]? with
          | none => .error (.indexingError none "BUG: missing inserted song")
          | some inserted =>
            let albumKey := inserted.album.unique_name
            let st2 := { st1 with
              index := idx1,
              song_count := st1.song_count + 1,
              previous_song_parent := parentOf path,
              previous_album := some albumKey }
            flushCovers cfg st2 albumKey st2.found_covers
    else if isCoverPath cfg path then
      if paths_eq st1.previous_song_parent (parentOf path) then
        match st1.previous_album with
        | none => .error (.indexingError none
            "BUG: previous_song_parent was Some but previous_album was None")
        | some key =>
          match attachCover cfg st1.index key path with
          | .error e => .error e
          | .ok idx2 =>
            .ok { st1 with index := idx2, attLog := st1.attLog ++ [(key, path)] }
      else .ok { st1 with found_covers := st1.found_covers ++ [path] }
    else .ok st1

/-- The browse loop over the walked entries. -/
def browse (cfg : WalkCfg) : WalkState → List WalkEntry → Except Err WalkState
  | st, [] => .ok st
  | st, e :: rest =>
    match browseStep cfg st e with
    | .error err => .error err
    | .ok st2 => browse cfg st2 rest

/-! ## Post-walk sorting of `artist_list` / `album_list` -/

/-- Lexicographic comparison on character lists; on valid strings this is
exactly Rust's `String` ordering (byte-lexicographic UTF-8, which agrees
with code-point order). -/
def lexLe : List Char → List Char → Bool
  | [], _ => true
  | _ :: _, [] => false
  | a :: as, b :: bs => if a < b then true else if a = b then lexLe as bs else false

/-- Rust `String` ordering, used by `Vec::sort` on the collected keys. -/
def strLe (a b : String) : Bool := lexLe a.data b.data

/-- Insert into a sorted list (one step of the sort used to model
`Vec::sort`). -/
def insertSorted (x : String) : List String → List String
  | [] => [x]
  | y :: ys => if strLe x y then x :: y :: ys else y :: insertSorted x ys

/-- Stable insertion sort by `strLe`; on the distinct keys collected from
a map this produces exactly the output of `Vec::sort`. -/
def sortStrings : List String → List String
  | [] => []
  | x :: xs => insertSorted x (sortStrings xs)

/-- `let mut names = map.keys().collect(); names.sort()` followed by the
push loop: the map's keys in sorted order. -/
def sortKeys (l : List (String × α)) : List String :=
  sortStrings (l.map Prod.fst)

/-- The two sorting passes after the browse loop: fill `artist_list` and
`album_list` with the respective map entries in key-sorted order. -/
def finalizeIndex (idx : Index) : Index :=
  { idx with artist_list := sortKeys idx.artists, album_list := sortKeys idx.albums }

/-! ## Fallback cover generation -/

/-- `async fn gen_cover(album) -> Result<Option<PathBuf>>`, with frame
decoding abstracted: `readFrame s.path` tells whether `Index::read_frame`
yields a video frame for the song's file (errors included). Iterates the
album's `songs` slots in storage order; for the first song with a frame,
the generated cover is written at `make_cover_path` and that path is
returned. -/
def gen_cover (readFrame : MPath → Except Err Bool) (heap : List Song) :
    List (Option Nat) → Except Err (Option MPath)
  | [] => .ok none
  | none :: rest => gen_cover readFrame heap rest
  | some i :: rest =>
    match heap[i]? with
    | none => gen_cover readFrame heap rest
    | some s =>
      match readFrame s.path with
      | .error e => .error e
      | .ok false => gen_cover readFrame heap rest
      | .ok true =>
        match make_cover_path s.path with
        | .error e => .error e
        | .ok p => .ok (some p)

/-- One album of the cover-generation pass at the end of `Index::index`:
albums that already have a cover are skipped; otherwise a generated cover,
when one could be produced, is attached via the same `insert_cover` path
(`attachCover`). -/
def genCoverStep (cfg : WalkCfg) (readFrame : MPath → Except Err Bool)
    (idx : Index) (key : String) : Except Err Index :=
  match alLookup idx.albums key with
  | none => .ok idx
  | some album =>
    if album.cover_url.isNone then
      match gen_cover readFrame idx.songHeap album.songs with
      | .error e => .error e
      | .ok none => .ok idx
      | .ok (some p) => attachCover cfg idx key p
    else .ok idx

/-- The cover-correlation invariant maintained by the browse loop:
every logged `insert_cover` call names a cover co-located with an already
indexed media file; a set `previous_album` witnesses a media file indexed
from `previous_song_parent`; and every buffered cover's directory is the
current `previous_parent`. -/
def WalkInv (cfg : WalkCfg) (processed : List WalkEntry) (st : WalkState) : Prop :=
  (∀ kc ∈ st.attLog, ∃ p, WalkEntry.ok p ∈ processed ∧ isMediaPath cfg p = true ∧
    parentOf p = parentOf kc.2) ∧
  (st.previous_album.isSome = true → ∃ p, WalkEntry.ok p ∈ processed ∧
    isMediaPath cfg p = true ∧ parentOf p = st.previous_song_parent) ∧
  (∀ c ∈ st.found_covers, st.previous_parent = parentOf c)

/-- The C10 invariant: the album's cover url and cover rating are set
together (`cover_url` is populated iff `cover_rating` is positive). -/
def AlbumInv (a : Album) : Prop :=
  a.cover_url.isSome = true ↔ 0 < a.cover_rating

/-! ## Concrete instances used by witnesses and counterexamples -/

/-- A probing oracle returning fixed metadata (title `T`, album `Al`,
artist `Ar`, no track). -/
def probeFixed : MPath → Except Err ProbeData :=
  fun _ => .ok ⟨some "T", some "Al", some "Ar", none⟩

/-- A walk configuration over base directory `b`: media files contain
`.flac`, cover files contain `.jpg`, nothing is excluded. -/
def cfgEx : WalkCfg :=
  ⟨fun s => containsSubstr s ".flac", fun _ => false,
   fun s => containsSubstr s ".jpg", fun _ => false,
   probeFixed, ["b"], "f"⟩

/-- A probing oracle that always fails, modelling a corrupt container. -/
def probeBad : MPath → Except Err ProbeData :=
  fun p => .error (.indexingError (some (pathToString p)) "probing media file")

/-- `cfgEx` with the failing probe. -/
def cfgBad : WalkCfg :=
  { cfgEx with probe := probeBad }

/-- A frame oracle that always decodes a frame. -/
def frameYes : MPath → Except Err Bool := fun _ => .ok true

/-- A one-song, one-album catalog without a cover, for exercising the
cover passes. -/
def songEx : Song := ⟨"T", "t", ⟨"Al", "al"⟩, [], none, none, "f/d/s.flac", ["b", "d", "s.flac"]⟩

/-- The album holding `songEx` at slot 0. -/
def albumEx : Album := ⟨"Al", "al", [], [some 0], [("t", 0)], none, 0, false, ["b", "d"]⟩

/-- The catalog holding `albumEx` and `songEx`. -/
def idxEx : Index := ⟨[], [], [("al", albumEx)], [], [songEx]⟩

/-- A song carrying track number 2, for exercising `insert_song`. -/
def songTracked : Song :=
  ⟨"T", "t", ⟨"Al", ""⟩, [⟨"Ar", ""⟩], some 2, none, "f/d/s.flac", ["b", "d", "s.flac"]⟩

/-- The walk state produced by browsing, under `cfgEx`, a song in `b/d`
followed by a cover in the same directory. -/
def wSt7 : WalkState :=
  ⟨⟨[("ar", ⟨"Ar", "ar", ["al"], none⟩)], [],
    [("al", ⟨"Al", "al", [⟨"Ar", "ar"⟩], [some 0], [("t", 0)],
      some "f/d/cover.jpg", 101, false, ["b", "d"]⟩)], [],
    [⟨"T", "t", ⟨"Al", "al"⟩, [⟨"Ar", "ar"⟩], none,
      some "f/d/cover.jpg", "f/d/s.flac", ["b", "d", "s.flac"]⟩]⟩,
   1, some ["b", "d"], some ["b", "d"], some "al", [],
   [("al", ["b", "d", "cover.jpg"])]⟩

/-! ## Helper lemmas -/

theorem listContainsSub_append_right (a b pat : List Char)
    (h : listContainsSub b pat = true) : listContainsSub (a ++ b) pat = true := by
  unfold listContainsSub at *
  rw [List.any_eq_true] at *
  obtain ⟨i, hi, hp⟩ := h
  refine ⟨a.length + i, ?_, ?_⟩
  · rw [List.mem_range] at *
    rw [List.length_append]
    omega
  · rw [List.drop_append]
    exact hp

theorem containsSubstr_append_right (s t pat : String)
    (h : containsSubstr t pat = true) : containsSubstr (s ++ t) pat = true := by
  unfold containsSubstr at *
  rw [String.data_append]
  exact listContainsSub_append_right _ _ _ h

/-- Inversion for a successful `gen_cover`: the returned path is the
generated-cover path of one of the album's songs. -/
theorem gen_cover_ok_some (rf : MPath → Except Err Bool) (heap : List Song) :
    ∀ (l : List (Option Nat)) (p : MPath), gen_cover rf heap l = .ok (some p) →
      ∃ i s, some i ∈ l ∧ heap[i]? = some s ∧ make_cover_path s.path = .ok p := by
  intro l
  induction l with
  | nil =>
    intro p h
    simp [gen_cover] at h
  | cons hd tl ih =>
    intro p h
    match hd with
    | none =>
      obtain ⟨i, s, hm, hh, hp⟩ := ih p (by simpa [gen_cover] using h)
      exact ⟨i, s, by simp [hm], hh, hp⟩
    | some i =>
      cases hh : heap[i]? with
      | none =>
        simp only [gen_cover, hh] at h
        obtain ⟨j, s, hm, hh2, hp⟩ := ih p h
        exact ⟨j, s, by simp [hm], hh2, hp⟩
      | some s =>
        cases hrf : rf s.path with
        | error e => simp only [gen_cover, hh, hrf] at h; exact absurd h (by simp)
        | ok b =>
          cases b with
          | false =>
            simp only [gen_cover, hh, hrf] at h
            obtain ⟨j, s2, hm, hh2, hp⟩ := ih p h
            exact ⟨j, s2, by simp [hm], hh2, hp⟩
          | true =>
            cases hmc : make_cover_path s.path with
            | error e => simp only [gen_cover, hh, hrf, hmc] at h; exact absurd h (by simp)
            | ok p2 =>
              simp only [gen_cover, hh, hrf, hmc] at h
              injection h with h2
              injection h2 with h3
              exact ⟨i, s, by simp, hh, by rw [hmc, h3]⟩

/-! ## C2: `rate_cover` scoring -/

/-- C2 (counterexample): the claim says a filename containing `small` but
not `cover` scores 1; the code scores it 21 because the +20 bonus for
`small` is independent of `cover`. -/
theorem rate_cover_small_without_cover :
    rate_cover ["d", "small.jpg"] = .ok 21 ∧ (21 : Nat) ≠ 1 := by
  exact ⟨rfl, by decide⟩

/-- C2 (amended): for every path with a file name, `rate_cover` returns
1, plus 100 if the file name contains `cover`, plus 20 if it contains
`small` — the two bonuses are independent, and matching is case-sensitive
substring search on the file name alone. -/
theorem rate_cover_spec (path : MPath) (f : String) (h : fileName path = some f) :
    rate_cover path =
      .ok (1 + (if containsSubstr f "cover" then 100 else 0)
             + (if containsSubstr f "small" then 20 else 0)) := by
  unfold rate_cover
  rw [h]
  by_cases hc : containsSubstr f "cover" <;> by_cases hs : containsSubstr f "small" <;>
    simp [hc, hs]

/-- C2 witness: `rate_cover_spec` applied to a concrete file name that
contains both substrings. -/
theorem rate_cover_spec_witness :
    rate_cover ["d", "cover-small.png"] = .ok 121 := by
  rw [rate_cover_spec ["d", "cover-small.png"] "cover-small.png" rfl]
  exact congrArg Except.ok (by decide)

/-! ## C3: generated-cover naming and rating -/

/-- C3 (counterexample): the generated cover file name carries the fixed
suffix, but its `rate_cover` score is 121 (the name contains both `cover`
and `small`), not the claimed baseline 1. -/
theorem make_cover_path_rating_counter :
    make_cover_path ["d", "song.flac"] = .ok ["d", "song.flac-ms1-cover-small-generated.jpg"] ∧
    rate_cover ["d", "song.flac-ms1-cover-small-generated.jpg"] = .ok 121 ∧
    (121 : Nat) ≠ 1 := by
  exact ⟨rfl, rfl, by decide⟩

/-- C3 (amended): a fallback-generated cover path is the source song's
file name plus the fixed suffix `-ms1-cover-small-generated.jpg`, placed in
the song's directory; it is attached through the same `insert_cover` path
(`attachCover`); and its rating is 121, so a generated cover outranks
rather than being outranked by typical real covers (generation only runs
for albums with no cover at all). -/
theorem gen_cover_spec (cfg : WalkCfg) (rf : MPath → Except Err Bool) (idx : Index)
    (key : String) (album : Album) (p : MPath)
    (ha : alLookup idx.albums key = some album)
    (hn : album.cover_url = none)
    (hg : gen_cover rf idx.songHeap album.songs = .ok (some p)) :
    (∃ i s, some i ∈ album.songs ∧ idx.songHeap[i]? = some s ∧
        ∃ f d, fileName s.path = some f ∧ parentOf s.path = some d ∧
          p = d ++ [f ++ "-ms1-cover-small-generated.jpg"]) ∧
    rate_cover p = .ok 121 ∧
    genCoverStep cfg rf idx key = attachCover cfg idx key p := by
  obtain ⟨i, s, hm, hh, hmc⟩ := gen_cover_ok_some rf idx.songHeap album.songs p hg
  have hshape : ∃ f d, fileName s.path = some f ∧ parentOf s.path = some d ∧
      p = d ++ [f ++ "-ms1-cover-small-generated.jpg"] := by
    unfold make_cover_path at hmc
    cases hf : fileName s.path with
    | none => rw [hf] at hmc; cases hmc
    | some f =>
      rw [hf] at hmc
      cases hd : parentOf s.path with
      | none => simp [hd] at hmc
      | some d =>
        simp only [hd] at hmc
        injection hmc with hp
        exact ⟨f, d, rfl, rfl, hp.symm⟩
  refine ⟨⟨i, s, hm, hh, hshape⟩, ?_, ?_⟩
  · obtain ⟨f, d, _, _, hp⟩ := hshape
    have hfn : fileName p = some (f ++ "-ms1-cover-small-generated.jpg") := by
      rw [hp]
      exact List.getLast?_concat _
    have hc : containsSubstr (f ++ "-ms1-cover-small-generated.jpg") "cover" = true :=
      containsSubstr_append_right _ _ _ (by decide)
    have hs : containsSubstr (f ++ "-ms1-cover-small-generated.jpg") "small" = true :=
      containsSubstr_append_right _ _ _ (by decide)
    unfold rate_cover
    rw [hfn]
    simp [hc, hs]
  · simp only [genCoverStep, ha, hn, Option.isNone_none, if_true]
    rw [hg]

/-! ## C1: `insert_cover` replacement and write-through -/

/-- Characterization of the write-through loop of `insert_cover`: song
slot `j` of the arena gets the new cover url exactly when `j` occurs in
the album's `songs` vector; all other songs are untouched. -/
theorem updateSongs_getElem (u : Option String) :
    ∀ (songs : List (Option Nat)) (heap : List Song) (j : Nat),
      (updateSongs songs u heap)[j]? =
        if songs.contains (some j) then
          (heap[j]?).map (fun s => { s with cover_url := u })
        else heap[j]? := by
  intro songs
  induction songs with
  | nil =>
    intro heap j
    simp [updateSongs]
  | cons hd tl ih =>
    intro heap j
    cases hd with
    | none =>
      rw [show updateSongs (none :: tl) u heap = updateSongs tl u heap from rfl, ih]
      simp [List.contains_cons]
    | some i =>
      rw [show updateSongs (some i :: tl) u heap =
        updateSongs tl u (match heap[i]? with
          | some s => heap.set i { s with cover_url := u }
          | none => heap) from rfl, ih]
      by_cases hij : i = j
      · subst hij
        cases hh : heap[i]? with
        | none => simp [hh, List.contains_cons]
        | some s =>
          have hlen : i < heap.length := (List.getElem?_eq_some_iff.mp hh).1
          simp only [hh]
          rw [List.getElem?_set_self hlen]
          simp [hh, List.contains_cons]
      · have hji : ¬ j = i := fun h => hij h.symm
        cases hh : heap[i]? with
        | none => simp [hh, List.contains_cons, hji]
        | some s =>
          simp only [hh]
          rw [List.getElem?_set_ne hij]
          simp [List.contains_cons, hji]

/-- C1: `insert_cover` replaces the album's `cover_url`/`cover_rating`
iff the candidate's rating is strictly greater than the current
`cover_rating`; on replacement the new url is written through to exactly
the songs attached to the album's `songs` vector, and otherwise the album
and every song are left unchanged. -/
theorem insert_cover_spec (album : Album) (heap : List Song) (path base : MPath)
    (fu : String) (r : Nat) (u : String)
    (hr : rate_cover path = .ok r) (hu : find_url path base fu = .ok u) :
    (album.cover_rating < r →
      insert_cover album heap path base fu =
        .ok ({ album with cover_url := some u, cover_rating := r },
             updateSongs album.songs (some u) heap) ∧
      ∀ j : Nat, (updateSongs album.songs (some u) heap)[j]? =
        if album.songs.contains (some j) then
          (heap[j]?).map (fun s => { s with cover_url := some u })
        else heap[j]?) ∧
    (¬ album.cover_rating < r →
      insert_cover album heap path base fu = .ok (album, heap)) := by
  constructor
  · intro hlt
    constructor
    · simp only [insert_cover, hr, hu, if_pos hlt]
    · intro j
      exact updateSongs_getElem (some u) album.songs heap j
  · intro hge
    simp only [insert_cover, hr, hu, if_neg hge]

/-- C1 witness: `insert_cover_spec` applied to the concrete one-song
catalog: a rating-101 cover replaces the unset cover and is written
through to the song at slot 0. -/
theorem insert_cover_spec_witness :
    insert_cover albumEx [songEx] ["b", "d", "cover.jpg"] ["b"] "f" =
      .ok ({ albumEx with cover_url := some "f/d/cover.jpg", cover_rating := 101 },
           [{ songEx with cover_url := some "f/d/cover.jpg" }]) := by
  have h := (insert_cover_spec albumEx [songEx] ["b", "d", "cover.jpg"] ["b"] "f"
    101 "f/d/cover.jpg" rfl rfl).1 (by decide)
  rw [h.1]
  exact congrArg Except.ok (by decide)

/-! ## C4: `get_or_insert_artist` idempotence and collision suffixing -/

theorem alLookup_cons (hd : String × α) (tl : List (String × α)) (k : String) :
    alLookup (hd :: tl) k = if hd.1 == k then some hd.2 else alLookup tl k := by
  by_cases h0 : hd.1 == k
  · simp [alLookup, List.find?_cons, h0]
  · have h0f : (hd.1 == k) = false := by simpa using h0
    simp [alLookup, List.find?_cons, h0f]

theorem alLookup_append (l1 l2 : List (String × α)) (k : String) :
    alLookup (l1 ++ l2) k = (alLookup l1 k).or (alLookup l2 k) := by
  induction l1 with
  | nil => simp [alLookup]
  | cons hd tl ih =>
    rw [List.cons_append, alLookup_cons, alLookup_cons]
    by_cases h0 : hd.1 == k
    · simp [h0]
    · simp [h0, ih]

theorem alLookup_replace (l : List (String × α)) (k : String) (v : α) :
    alLookup (l.map (fun p => if p.1 == k then (k, v) else p)) k =
      (alLookup l k).map (fun _ => v) := by
  simp only [beq_iff_eq]
  induction l with
  | nil => simp [alLookup]
  | cons hd tl ih =>
    by_cases h0 : hd.1 = k
    · simp [List.map_cons, h0, alLookup_cons]
    · simp [List.map_cons, h0, alLookup_cons, ih]

theorem alLookup_replace_ne (l : List (String × α)) (k k2 : String) (v : α)
    (h : k2 ≠ k) :
    alLookup (l.map (fun p => if p.1 == k then (k, v) else p)) k2 =
      alLookup l k2 := by
  have hk2 : ¬ k = k2 := fun he => h he.symm
  simp only [beq_iff_eq]
  induction l with
  | nil => simp
  | cons hd tl ih =>
    by_cases h0 : hd.1 = k
    · simp [List.map_cons, h0, alLookup_cons, hk2, ih]
    · simp [List.map_cons, h0, alLookup_cons, ih]

theorem alLookup_insert_self (l : List (String × α)) (k : String) (v : α) :
    alLookup (alInsert l k v) k = some v := by
  unfold alInsert
  by_cases hc : alContains l k
  · rw [if_pos hc, alLookup_replace]
    unfold alContains at hc
    cases hl : alLookup l k with
    | none => rw [hl] at hc; simp at hc
    | some w => simp
  · rw [if_neg hc, alLookup_append]
    unfold alContains at hc
    cases hl : alLookup l k with
    | some w => rw [hl] at hc; simp at hc
    | none => simp [alLookup_cons]

theorem alLookup_insert_ne (l : List (String × α)) (k k2 : String) (v : α)
    (h : k2 ≠ k) : alLookup (alInsert l k v) k2 = alLookup l k2 := by
  unfold alInsert
  by_cases hc : alContains l k
  · rw [if_pos hc]
    exact alLookup_replace_ne l k k2 v h
  · rw [if_neg hc, alLookup_append, alLookup_cons]
    have hf : (k == k2) = false := by simp; exact fun he => h he.symm
    simp [hf, alLookup]

theorem alInsert_length_fresh (l : List (String × α)) (k : String) (v : α)
    (hc : alContains l k = false) : (alInsert l k v).length = l.length + 1 := by
  simp [alInsert, hc]

theorem strNeAppend (s t : String) (ht : 0 < t.length) : s ≠ s ++ t := by
  intro he
  have hl := congrArg String.length he
  rw [String.length_append] at hl
  omega

theorem strAppendNe (s : String) {t u : String} (h : t ≠ u) : s ++ t ≠ s ++ u := by
  intro he
  apply h
  apply String.ext
  have hd := congrArg String.data he
  rw [String.data_append, String.data_append] at hd
  exact List.append_cancel_left hd

/-- C4: `get_or_insert_artist` is idempotent on an exact re-insertion (an
entry at the slug whose display name equals the input is returned with no
change to the catalog), and three distinct display names sharing one slug
receive, in insertion order, the unique names `slug`, `slug-1`, `slug-2`,
with all three artists present afterwards. -/
theorem get_or_insert_artist_spec :
    (∀ (idx : Index) (name : String) (a : Artist),
      alLookup idx.artists (sanitize name) = some a → a.name = name →
      get_or_insert_artist idx name = (a.unique_name, idx)) ∧
    (∀ (idx0 : Index) (n1 n2 n3 s : String),
      sanitize n1 = s → sanitize n2 = s → sanitize n3 = s →
      n1 ≠ n2 → n1 ≠ n3 → n2 ≠ n3 →
      alLookup idx0.artists s = none →
      alLookup idx0.artists (s ++ "-1") = none →
      alLookup idx0.artists (s ++ "-2") = none →
      ∀ r1 r2 r3, r1 = get_or_insert_artist idx0 n1 →
        r2 = get_or_insert_artist r1.2 n2 →
        r3 = get_or_insert_artist r2.2 n3 →
        r1.1 = s ∧ r2.1 = s ++ "-1" ∧ r3.1 = s ++ "-2" ∧
        (alLookup r3.2.artists s).map Artist.name = some n1 ∧
        (alLookup r3.2.artists (s ++ "-1")).map Artist.name = some n2 ∧
        (alLookup r3.2.artists (s ++ "-2")).map Artist.name = some n3) := by
  constructor
  · intro idx name a hl hn
    simp only [get_or_insert_artist, hl, if_pos hn]
  · intro idx0 n1 n2 n3 s h1 h2 h3 h12 h13 h23 e0 e1 e2 r1 r2 r3 hr1 hr2 hr3
    have hs1 : s ≠ s ++ "-1" := strNeAppend s "-1" (by decide)
    have hs2 : s ≠ s ++ "-2" := strNeAppend s "-2" (by decide)
    have hs12 : s ++ "-1" ≠ s ++ "-2" := strAppendNe s (by decide)
    have ht1 : s ++ "-" ++ toString (1 : Nat) = s ++ "-1" := by
      rw [String.append_assoc]
      exact congrArg (fun t => s ++ t) (by decide)
    have ht2 : s ++ "-" ++ toString (2 : Nat) = s ++ "-2" := by
      rw [String.append_assoc]
      exact congrArg (fun t => s ++ t) (by decide)
    -- step 1: creation at the bare slug
    have key1 : get_or_insert_artist idx0 n1 =
        (s, { idx0 with artists := alInsert idx0.artists s ⟨n1, s, [], none⟩ }) := by
      simp only [get_or_insert_artist, h1, e0]
    set A := alInsert idx0.artists s (⟨n1, s, [], none⟩ : Artist) with hA
    have f1 : alLookup A s = some ⟨n1, s, [], none⟩ := alLookup_insert_self _ _ _
    have f2 : alLookup A (s ++ "-1") = none := by
      rw [alLookup_insert_ne _ _ _ _ (Ne.symm hs1)]; exact e1
    have f3 : alLookup A (s ++ "-2") = none := by
      rw [alLookup_insert_ne _ _ _ _ (Ne.symm hs2)]; exact e2
    have flen : A.length = idx0.artists.length + 1 :=
      alInsert_length_fresh _ _ _ (by simp [alContains, e0])
    -- step 2: collision, probe finds slug-1 free
    have key2 : get_or_insert_artist r1.2 n2 =
        (s ++ "-1", { r1.2 with artists := alInsert A (s ++ "-1") ⟨n2, s ++ "-1", [], none⟩ }) := by
      rw [hr1, key1]
      simp only [get_or_insert_artist, h2, f1, if_neg (show ¬ n1 = n2 from h12)]
      rw [probeArtist, ht1, f2]
    set B := alInsert A (s ++ "-1") (⟨n2, s ++ "-1", [], none⟩ : Artist) with hB
    have g1 : alLookup B s = some ⟨n1, s, [], none⟩ := by
      rw [alLookup_insert_ne _ _ _ _ hs1]; exact f1
    have g2 : alLookup B (s ++ "-1") = some ⟨n2, s ++ "-1", [], none⟩ :=
      alLookup_insert_self _ _ _
    have g3 : alLookup B (s ++ "-2") = none := by
      rw [alLookup_insert_ne _ _ _ _ (Ne.symm hs12)]; exact f3
    have glen : B.length = A.length + 1 :=
      alInsert_length_fresh _ _ _ (by simp [alContains, f2])
    -- step 3: collision, probe walks slug-1 then finds slug-2 free
    have key3 : get_or_insert_artist r2.2 n3 =
        (s ++ "-2", { r2.2 with artists := alInsert B (s ++ "-2") ⟨n3, s ++ "-2", [], none⟩ }) := by
      rw [hr2, key2]
      simp only [get_or_insert_artist, h3, g1, if_neg (show ¬ n1 = n3 from h13)]
      rw [probeArtist, ht1]
      simp only [g2, if_neg (show ¬ n2 = n3 from h23)]
      norm_num
      rw [glen, probeArtist, ht2, g3]
    refine ⟨by rw [hr1, key1], by rw [hr2, key2], by rw [hr3, key3], ?_, ?_, ?_⟩
    · rw [hr3, key3]
      have : alLookup (alInsert B (s ++ "-2") (⟨n3, s ++ "-2", [], none⟩ : Artist)) s =
          some ⟨n1, s, [], none⟩ := by
        rw [alLookup_insert_ne _ _ _ _ hs2]; exact g1
      simp [this]
    · rw [hr3, key3]
      have : alLookup (alInsert B (s ++ "-2") (⟨n3, s ++ "-2", [], none⟩ : Artist)) (s ++ "-1") =
          some ⟨n2, s ++ "-1", [], none⟩ := by
        rw [alLookup_insert_ne _ _ _ _ hs12]; exact g2
      simp [this]
    · rw [hr3, key3]
      simp [alLookup_insert_self]

/-- C4 witness: three display names (`A B`, `A-B`, `A.B`) all sanitize to
`a-b`; `get_or_insert_artist_spec` gives the keys `a-b`, `a-b-1`, `a-b-2`,
and re-inserting the first name afterwards is idempotent. -/
theorem get_or_insert_artist_spec_witness :
    ((get_or_insert_artist emptyIndex "A B").1 = "a-b" ∧
     (get_or_insert_artist (get_or_insert_artist emptyIndex "A B").2 "A-B").1 = "a-b-1" ∧
     (get_or_insert_artist ((get_or_insert_artist (get_or_insert_artist emptyIndex "A B").2 "A-B").2) "A.B").1 = "a-b-2") ∧
    get_or_insert_artist (get_or_insert_artist emptyIndex "A B").2 "A B" =
      ("a-b", (get_or_insert_artist emptyIndex "A B").2) := by
  constructor
  · have h := get_or_insert_artist_spec.2 emptyIndex "A B" "A-B" "A.B" "a-b"
      (by decide) (by decide) (by decide) (by decide) (by decide) (by decide)
      (by decide) (by decide) (by decide)
      (get_or_insert_artist emptyIndex "A B")
      (get_or_insert_artist (get_or_insert_artist emptyIndex "A B").2 "A-B")
      (get_or_insert_artist ((get_or_insert_artist (get_or_insert_artist emptyIndex "A B").2 "A-B").2) "A.B")
      rfl rfl rfl
    refine ⟨h.1, ?_, ?_⟩
    · rw [h.2.1]; decide
    · rw [h.2.2.1]; decide
  · have h := get_or_insert_artist_spec.1 (get_or_insert_artist emptyIndex "A B").2
      "A B" ⟨"A B", "a-b", [], none⟩ (by decide) rfl
    rw [h]

/-- C3 witness: `gen_cover_spec` applied to the one-song coverless
catalog with a frame oracle that always decodes. -/
theorem gen_cover_spec_witness :
    genCoverStep cfgEx frameYes idxEx "al" =
      attachCover cfgEx idxEx "al" ["b", "d", "s.flac-ms1-cover-small-generated.jpg"] ∧
    rate_cover ["b", "d", "s.flac-ms1-cover-small-generated.jpg"] = .ok 121 := by
  have h := gen_cover_spec cfgEx frameYes idxEx "al" albumEx
    ["b", "d", "s.flac-ms1-cover-small-generated.jpg"] (by decide) rfl (by decide)
  exact ⟨h.2.2, h.2.1⟩

/-! ## C5: `insert_song` track placement and untracked append -/

/-- C5: inserting a song with track number `t ≥ 1` marks the album
`tracked`, grows the sparse `songs` vector so slot `t-1` exists, places
the song there (overwriting any previous occupant: last-writer-wins), and
records it in `songs_by_name`; inserting a song without a track number
appends it at the end of `songs` (preserving the relative order of
untracked insertions) and records it in `songs_by_name`. -/
theorem insert_song_spec (idx : Index) (song : Song) (dir : MPath)
    (ra : List ArtistRef × Index) (q : String × Index) (a : Album)
    (hdir : parentOf song.path = some dir)
    (hra : ra = resolveArtists idx song.artists)
    (hq : q = get_or_insert_album ra.2 song.album.name ra.1 dir)
    (ha : alLookup q.2.albums q.1 = some a) :
    (∀ t, song.track = some t → 1 ≤ t →
      insert_song idx song = .ok (q.2.songHeap.length,
        { q.2 with
          albums := alInsert q.2.albums q.1
            { a with
              tracked := true,
              songs := (growSongs a.songs t).set (t - 1) (some q.2.songHeap.length),
              songs_by_name := alInsert a.songs_by_name
                (finishSong song ra.1 q.1 a.cover_url).unique_name q.2.songHeap.length },
          songHeap := q.2.songHeap ++ [finishSong song ra.1 q.1 a.cover_url] }) ∧
      t - 1 < (growSongs a.songs t).length ∧
      ((growSongs a.songs t).set (t - 1) (some q.2.songHeap.length))[t - 1]? =
        some (some q.2.songHeap.length) ∧
      alLookup (alInsert a.songs_by_name
          (finishSong song ra.1 q.1 a.cover_url).unique_name q.2.songHeap.length)
        (finishSong song ra.1 q.1 a.cover_url).unique_name = some q.2.songHeap.length) ∧
    (song.track = none →
      insert_song idx song = .ok (q.2.songHeap.length,
        { q.2 with
          albums := alInsert q.2.albums q.1
            { a with
              songs := a.songs ++ [some q.2.songHeap.length],
              songs_by_name := alInsert a.songs_by_name
                (finishSong song ra.1 q.1 a.cover_url).unique_name q.2.songHeap.length },
          songHeap := q.2.songHeap ++ [finishSong song ra.1 q.1 a.cover_url] }) ∧
      alLookup (alInsert a.songs_by_name
          (finishSong song ra.1 q.1 a.cover_url).unique_name q.2.songHeap.length)
        (finishSong song ra.1 q.1 a.cover_url).unique_name = some q.2.songHeap.length) := by
  have htrack : (finishSong song ra.1 q.1 a.cover_url).track = song.track := rfl
  constructor
  · intro t ht h1t
    have hbound : t - 1 < (growSongs a.songs t).length := by
      unfold growSongs
      by_cases hle : a.songs.length ≤ t - 1
      · rw [if_pos hle]
        rw [List.length_append, List.length_replicate]
        omega
      · rw [if_neg hle]
        omega
    refine ⟨?_, hbound, ?_, alLookup_insert_self _ _ _⟩
    · simp only [insert_song, ← hra, hdir, ← hq, ha, htrack, ht]
    · rw [List.getElem?_set_self hbound]
  · intro ht
    refine ⟨?_, alLookup_insert_self _ _ _⟩
    simp only [insert_song, ← hra, hdir, ← hq, ha, htrack, ht]

/-- C5 witness: `insert_song_spec` on an empty catalog with a track-2
song: the album's sparse vector becomes `[none, slot 0]`, `tracked` is
true, and the song is reachable by name. -/
theorem insert_song_spec_witness :
    (insert_song emptyIndex songTracked).toOption.map (fun r =>
      (r.1, (alLookup r.2.albums "al").map (fun a =>
        (a.songs, a.tracked, alLookup a.songs_by_name "t")))) =
      some (0, some ([none, some 0], true, some 0)) := by
  have h := (insert_song_spec emptyIndex songTracked ["b", "d"]
    (resolveArtists emptyIndex songTracked.artists)
    (get_or_insert_album (resolveArtists emptyIndex songTracked.artists).2
      songTracked.album.name (resolveArtists emptyIndex songTracked.artists).1 ["b", "d"])
    ⟨"Al", "al", [⟨"Ar", "ar"⟩], [], [], none, 0, false, ["b", "d"]⟩
    rfl rfl rfl (by decide)).1 2 rfl (by decide)
  rw [h.1]
  decide

/-! ## C9: sorted `artist_list` / `album_list` -/

theorem lexLe_trans : ∀ a b c, lexLe a b = true → lexLe b c = true → lexLe a c = true := by
  intro a
  induction a with
  | nil => intro b c _ _; rfl
  | cons x xs ih =>
    intro b c hab hbc
    cases b with
    | nil => simp [lexLe] at hab
    | cons y ys =>
      cases c with
      | nil => simp [lexLe] at hbc
      | cons z zs =>
        simp only [lexLe] at hab hbc ⊢
        by_cases hxy : x < y
        · by_cases hyz : y < z
          · simp [lt_trans hxy hyz]
          · by_cases hyz2 : y = z
            · simp [hyz2 ▸ hxy]
            · simp [hyz, hyz2] at hbc
        · by_cases hxy2 : x = y
          · subst hxy2
            by_cases hyz : x < z
            · simp [hyz]
            · by_cases hyz2 : x = z
              · subst hyz2
                simp [hxy] at hab hbc ⊢
                exact ih _ _ hab hbc
              · simp [hyz, hyz2] at hbc
          · simp [hxy, hxy2] at hab

theorem lexLe_total : ∀ a b, (lexLe a b || lexLe b a) = true := by
  intro a
  induction a with
  | nil => intro b; simp [lexLe]
  | cons x xs ih =>
    intro b
    cases b with
    | nil => simp [lexLe]
    | cons y ys =>
      simp only [lexLe]
      by_cases hxy : x < y
      · simp [hxy]
      · by_cases hyx : y < x
        · simp [hyx]
        · have hxy2 : x = y := le_antisymm (not_lt.mp hyx) (not_lt.mp hxy)
          subst hxy2
          simpa [hxy] using ih ys

theorem lexLe_antisymm : ∀ a b, lexLe a b = true → lexLe b a = true → a = b := by
  intro a
  induction a with
  | nil =>
    intro b _ hba
    cases b with
    | nil => rfl
    | cons y ys => simp [lexLe] at hba
  | cons x xs ih =>
    intro b hab hba
    cases b with
    | nil => simp [lexLe] at hab
    | cons y ys =>
      simp only [lexLe] at hab hba
      by_cases hxy : x < y
      · have : ¬ y < x := lt_asymm hxy
        simp [this, Ne.symm (ne_of_lt hxy)] at hba
      · by_cases hxy2 : x = y
        · subst hxy2
          simp [hxy] at hab hba
          rw [ih _ hab hba]
        · simp [hxy, hxy2] at hab

theorem strLe_trans (a b c : String) (h1 : strLe a b = true) (h2 : strLe b c = true) :
    strLe a c = true := lexLe_trans _ _ _ h1 h2

theorem strLe_total (a b : String) : (strLe a b || strLe b a) = true := lexLe_total _ _

theorem strLe_antisymm (a b : String) (h1 : strLe a b = true) (h2 : strLe b a = true) :
    a = b := String.ext (lexLe_antisymm _ _ h1 h2)

instance : IsAntisymm String (fun a b => strLe a b = true) := ⟨strLe_antisymm⟩

theorem insertSorted_perm (x : String) (l : List String) :
    (insertSorted x l).Perm (x :: l) := by
  induction l with
  | nil => exact List.Perm.refl _
  | cons y ys ih =>
    rw [insertSorted]
    by_cases h : strLe x y
    · rw [if_pos h]
    · rw [if_neg h]
      exact (List.Perm.cons y ih).trans (List.Perm.swap x y ys)

theorem insertSorted_sorted (x : String) (l : List String)
    (h : List.Sorted (fun a b => strLe a b = true) l) :
    List.Sorted (fun a b => strLe a b = true) (insertSorted x l) := by
  induction l with
  | nil => simp [insertSorted]
  | cons y ys ih =>
    rw [insertSorted]
    rw [List.sorted_cons] at h
    by_cases hxy : strLe x y
    · rw [if_pos hxy]
      rw [List.sorted_cons]
      refine ⟨?_, List.sorted_cons.mpr h⟩
      intro b hb
      rcases List.mem_cons.mp hb with hb | hb
      · exact hb ▸ hxy
      · exact strLe_trans x y b hxy (h.1 b hb)
    · rw [if_neg hxy]
      have hyx : strLe y x = true := by
        have := strLe_total x y
        rcases Bool.or_eq_true_iff.mp this with h1 | h1
        · exact absurd h1 hxy
        · exact h1
      rw [List.sorted_cons]
      refine ⟨?_, ih h.2⟩
      intro b hb
      have : b ∈ x :: ys := (insertSorted_perm x ys).mem_iff.mp hb
      rcases List.mem_cons.mp this with hb2 | hb2
      · exact hb2 ▸ hyx
      · exact h.1 b hb2

theorem sortStrings_perm (l : List String) : (sortStrings l).Perm l := by
  induction l with
  | nil => exact List.Perm.refl _
  | cons x xs ih =>
    rw [sortStrings]
    exact (insertSorted_perm x (sortStrings xs)).trans (List.Perm.cons x ih)

theorem sortStrings_sorted (l : List String) :
    List.Sorted (fun a b => strLe a b = true) (sortStrings l) := by
  induction l with
  | nil => simp [sortStrings]
  | cons x xs ih =>
    rw [sortStrings]
    exact insertSorted_sorted x _ ih

theorem sortKeys_sorted (l : List (String × α)) :
    List.Sorted (fun a b => strLe a b = true) (sortKeys l) :=
  sortStrings_sorted _

theorem sortKeys_perm (l : List (String × α)) :
    (sortKeys l).Perm (l.map Prod.fst) :=
  sortStrings_perm _

/-- C9: after the two sorting passes, `artist_list` and `album_list` hold
exactly the keys of the catalog's maps, in ascending `unique_name` order,
and any two catalogs whose maps hold the same keys (in any order) produce
identical lists — the enumeration order is independent of walk order. -/
theorem finalize_sorted_spec (idx idx2 : Index)
    (hpa : (idx.artists.map Prod.fst).Perm (idx2.artists.map Prod.fst))
    (hpb : (idx.albums.map Prod.fst).Perm (idx2.albums.map Prod.fst)) :
    List.Sorted (fun a b => strLe a b = true) (finalizeIndex idx).artist_list ∧
    (finalizeIndex idx).artist_list.Perm (idx.artists.map Prod.fst) ∧
    List.Sorted (fun a b => strLe a b = true) (finalizeIndex idx).album_list ∧
    (finalizeIndex idx).album_list.Perm (idx.albums.map Prod.fst) ∧
    (finalizeIndex idx).artist_list = (finalizeIndex idx2).artist_list ∧
    (finalizeIndex idx).album_list = (finalizeIndex idx2).album_list := by
  refine ⟨sortKeys_sorted _, sortKeys_perm _, sortKeys_sorted _, sortKeys_perm _, ?_, ?_⟩
  · exact List.eq_of_perm_of_sorted
      (((sortKeys_perm idx.artists).trans hpa).trans (sortKeys_perm idx2.artists).symm)
      (sortKeys_sorted _) (sortKeys_sorted _)
  · exact List.eq_of_perm_of_sorted
      (((sortKeys_perm idx.albums).trans hpb).trans (sortKeys_perm idx2.albums).symm)
      (sortKeys_sorted _) (sortKeys_sorted _)

/-- C9 witness: two catalogs holding artists `Zeta`/`Alpha` in opposite
map orders both enumerate `[alpha, zeta]`. -/
theorem finalize_sorted_spec_witness :
    (finalizeIndex ⟨[("zeta", ⟨"Zeta", "zeta", [], none⟩), ("alpha", ⟨"Alpha", "alpha", [], none⟩)],
        [], [], [], []⟩).artist_list =
      (finalizeIndex ⟨[("alpha", ⟨"Alpha", "alpha", [], none⟩), ("zeta", ⟨"Zeta", "zeta", [], none⟩)],
        [], [], [], []⟩).artist_list ∧
    (finalizeIndex ⟨[("zeta", ⟨"Zeta", "zeta", [], none⟩), ("alpha", ⟨"Alpha", "alpha", [], none⟩)],
        [], [], [], []⟩).artist_list = ["alpha", "zeta"] := by
  have h := finalize_sorted_spec
    ⟨[("zeta", ⟨"Zeta", "zeta", [], none⟩), ("alpha", ⟨"Alpha", "alpha", [], none⟩)], [], [], [], []⟩
    ⟨[("alpha", ⟨"Alpha", "alpha", [], none⟩), ("zeta", ⟨"Zeta", "zeta", [], none⟩)], [], [], [], []⟩
    (by decide) (by decide)
  exact ⟨h.2.2.2.2.1, by decide⟩

/-! ## C6: a probing failure aborts the whole index operation -/

/-- The browse loop distributes over list append, propagating the first
error. -/
theorem browse_append (cfg : WalkCfg) (l1 l2 : List WalkEntry) (st : WalkState) :
    browse cfg st (l1 ++ l2) =
      match browse cfg st l1 with
      | .error e => .error e
      | .ok st2 => browse cfg st2 l2 := by
  induction l1 generalizing st with
  | nil => simp [browse]
  | cons e rest ih =>
    rw [List.cons_append, browse]
    cases hs : browseStep cfg st e with
    | error err => simp [browse, hs]
    | ok st2 => simp [browse, hs, ih]

/-- C6: if any media file's parse (container probing) fails, the whole
browse loop returns that error: the failure is not caught per-file, no
catalog state is returned, and the entries after the failing file are
never examined. -/
theorem index_aborts_on_probe_failure (cfg : WalkCfg) (st0 st1 : WalkState)
    (pre post : List WalkEntry) (p : MPath) (e : Err)
    (hpre : browse cfg st0 pre = .ok st1)
    (hm : isMediaPath cfg p = true)
    (hp : parseSong cfg.probe p cfg.base cfg.files_url = .error e) :
    browse cfg st0 (pre ++ .ok p :: post) = .error e := by
  have hstep : browseStep cfg st1 (.ok p) = .error e := by
    simp only [browseStep, hm, hp, if_true]
  simp only [browse_append, hpre, browse, hstep]

/-- C6 witness: with a failing probe, a walk holding a media file followed
by another file aborts with the probing error. -/
theorem index_aborts_on_probe_failure_witness :
    browse cfgBad initState [.ok ["b", "d", "s.flac"], .ok ["b", "e", "t.flac"]] =
      .error (.indexingError (some "b/d/s.flac") "probing media file") := by
  exact index_aborts_on_probe_failure cfgBad initState initState []
    [.ok ["b", "e", "t.flac"]] ["b", "d", "s.flac"]
    (.indexingError (some "b/d/s.flac") "probing media file")
    rfl (by decide) (by decide)

/-! ## C8: title fallback from the file name -/

/-- C8 (counterexample): with no recoverable metadata title, a file named
`Track07` (no extension) yields the literal title `Unknown`, not the
claimed filename-derived `Track07` — the strip-suffix regex requires a
dot followed by a nonempty extension. -/
theorem title_fallback_counter :
    (parseSong (fun _ => .ok ⟨none, none, none, none⟩) ["b", "Track07"] ["b"] "f").toOption.map
        Song.name = some "Unknown" ∧
    "Unknown" ≠ "Track07" := by
  exact ⟨by decide, by decide⟩

/-- C8 (amended): when no title is recoverable from container or stream
metadata, the title falls back to the file name with its extension
stripped whenever the name matches `name.ext` (nonempty name, a final dot,
nonempty dot-free extension) — with `unique_name` its sanitized form —
and to the literal `Unknown` when the file name has no such extension. -/
theorem parse_title_fallback (probe : MPath → Except Err ProbeData)
    (path base : MPath) (fu : String) (al ar : Option String) (tr : Option Nat) (u : String)
    (hp : probe path = .ok ⟨none, al, ar, tr⟩)
    (hu : find_url path base fu = .ok u) :
    (∀ f t, fileName path = some f → stripExt f = some t →
      ∃ sg, parseSong probe path base fu = .ok sg ∧
        sg.name = t ∧ sg.unique_name = sanitize t) ∧
    ((fileName path).bind stripExt = none →
      ∃ sg, parseSong probe path base fu = .ok sg ∧
        sg.name = "Unknown" ∧ sg.unique_name = sanitize "Unknown") := by
  constructor
  · intro f t hf ht
    refine ⟨⟨t, sanitize t, ⟨al.getD "Unknown", ""⟩,
      (splitArtists (ar.getD "Unknown")).map (fun s2 => ⟨s2, ""⟩), tr, none, u, path⟩,
      ?_, rfl, rfl⟩
    simp only [parseSong, hu, hp, hf, Option.some_bind, ht, Option.getD_some]
  · intro hnone
    refine ⟨⟨"Unknown", sanitize "Unknown", ⟨al.getD "Unknown", ""⟩,
      (splitArtists (ar.getD "Unknown")).map (fun s2 => ⟨s2, ""⟩), tr, none, u, path⟩,
      ?_, rfl, rfl⟩
    simp only [parseSong, hu, hp, hnone, Option.getD_none]

/-- C8 witness: `parse_title_fallback` on a metadata-less `Track07.flac`
gives title `Track07` and unique name `track07`. -/
theorem parse_title_fallback_witness :
    ∃ sg, parseSong (fun _ => .ok ⟨none, none, none, none⟩) ["b", "Track07.flac"] ["b"] "f" =
        .ok sg ∧ sg.name = "Track07" ∧ sg.unique_name = "track07" := by
  obtain ⟨sg, h1, h2, h3⟩ := (parse_title_fallback
    (fun _ => .ok ⟨none, none, none, none⟩) ["b", "Track07.flac"] ["b"] "f"
    none none none "f/Track07.flac" rfl (by decide)).1 "Track07.flac" "Track07" rfl (by decide)
  exact ⟨sg, h1, h2, h3.trans (by decide)⟩

/-! ## C7: cover correlation by directory proximity -/

theorem paths_eq_iff (a b : Option MPath) : paths_eq a b = true ↔ a = b := by
  cases a <;> cases b <;> simp [paths_eq]

theorem updateSongs_length (songs : List (Option Nat)) (u : Option String) :
    ∀ heap : List Song, (updateSongs songs u heap).length = heap.length := by
  induction songs with
  | nil => intro heap; rfl
  | cons hd tl ih =>
    intro heap
    cases hd with
    | none => exact ih heap
    | some i =>
      rw [show updateSongs (some i :: tl) u heap =
        updateSongs tl u (match heap[i]? with
          | some s => heap.set i { s with cover_url := u }
          | none => heap) from rfl]
      cases hh : heap[i]? with
      | none => simp only [hh]; exact ih heap
      | some s => simp only [hh]; rw [ih]; exact List.length_set heap i _

theorem updateSongs_album (songs : List (Option Nat)) (u : Option String)
    (heap : List Song) (j : Nat) :
    ((updateSongs songs u heap)[j]?).map Song.album = (heap[j]?).map Song.album := by
  rw [updateSongs_getElem]
  by_cases hc : songs.contains (some j)
  · rw [if_pos hc]
    cases heap[j]? <;> rfl
  · rw [if_neg hc]

theorem insert_cover_heap (album : Album) (heap : List Song) (path base : MPath)
    (fu : String) (album2 : Album) (heap2 : List Song)
    (h : insert_cover album heap path base fu = .ok (album2, heap2)) :
    heap2.length = heap.length ∧
    ∀ j : Nat, (heap2[j]?).map Song.album = (heap[j]?).map Song.album := by
  cases hr : rate_cover path with
  | error e => simp only [insert_cover, hr] at h; exact absurd h (by simp)
  | ok r =>
    simp only [insert_cover, hr] at h
    by_cases hlt : album.cover_rating < r
    · rw [if_pos hlt] at h
      cases hu : find_url path base fu with
      | error e => rw [hu] at h; cases h
      | ok u =>
        rw [hu] at h
        injection h with h2
        have hh : heap2 = updateSongs album.songs (some u) heap :=
          (congrArg Prod.snd h2).symm
        subst hh
        exact ⟨updateSongs_length _ _ _, fun j => updateSongs_album _ _ _ j⟩
    · rw [if_neg hlt] at h
      injection h with h2
      have hh : heap2 = heap := (congrArg Prod.snd h2).symm
      subst hh
      exact ⟨rfl, fun j => rfl⟩

theorem attachCover_facts (cfg : WalkCfg) (idx : Index) (key : String) (cover : MPath)
    (idx2 : Index) (h : attachCover cfg idx key cover = .ok idx2) :
    idx2.songHeap.length = idx.songHeap.length ∧
    ∀ j : Nat, (idx2.songHeap[j]?).map Song.album = (idx.songHeap[j]?).map Song.album := by
  cases ha : alLookup idx.albums key with
  | none => simp only [attachCover, ha] at h; exact absurd h (by simp)
  | some album =>
    cases hic : insert_cover album idx.songHeap cover cfg.base cfg.files_url with
    | error e => simp only [attachCover, ha, hic] at h; exact absurd h (by simp)
    | ok pr =>
      simp only [attachCover, ha, hic] at h
      injection h with h2
      obtain ⟨hl, hj⟩ := insert_cover_heap album idx.songHeap cover cfg.base cfg.files_url
        pr.1 pr.2 hic
      rw [← h2]
      exact ⟨hl, hj⟩

theorem flushCovers_ok (cfg : WalkCfg) :
    ∀ (covers : List MPath) (st : WalkState) (key : String) (st' : WalkState),
      flushCovers cfg st key covers = .ok st' →
      st'.attLog = st.attLog ++ covers.map (fun c => (key, c)) ∧
      st'.found_covers = [] ∧
      st'.previous_parent = st.previous_parent ∧
      st'.previous_song_parent = st.previous_song_parent ∧
      st'.previous_album = st.previous_album ∧
      st'.index.songHeap.length = st.index.songHeap.length ∧
      (∀ j : Nat, (st'.index.songHeap[j]?).map Song.album =
        (st.index.songHeap[j]?).map Song.album) := by
  intro covers
  induction covers with
  | nil =>
    intro st key st' h
    simp only [flushCovers] at h
    injection h with h2
    subst h2
    simp
  | cons c rest ih =>
    intro st key st' h
    simp only [flushCovers] at h
    cases hat : attachCover cfg st.index key c with
    | error e => rw [hat] at h; cases h
    | ok idx2 =>
      rw [hat] at h
      obtain ⟨l1, l2, l3, l4, l5, l7, l8⟩ := ih _ key st' h
      obtain ⟨a1, a2⟩ := attachCover_facts cfg st.index key c idx2 hat
      refine ⟨?_, l2, l3, l4, l5, ?_, ?_⟩
      · rw [l1]
        simp
      · rw [l7]
        exact a1
      · intro j
        rw [l8 j]
        exact a2 j

/-- A successful `insert_song` appends exactly one song to the arena and
returns its index. -/
theorem insert_song_heap_shape (idx : Index) (song : Song) (sid : Nat) (idx' : Index)
    (h : insert_song idx song = .ok (sid, idx')) :
    ∃ h0 s2, idx'.songHeap = h0 ++ [s2] ∧ sid = h0.length := by
  cases hp : parentOf song.path with
  | none => simp only [insert_song, hp] at h; exact absurd h (by simp)
  | some dir =>
    simp only [insert_song, hp] at h
    cases ha : alLookup (get_or_insert_album (resolveArtists idx song.artists).2
        song.album.name (resolveArtists idx song.artists).1 dir).2.albums
        (get_or_insert_album (resolveArtists idx song.artists).2
          song.album.name (resolveArtists idx song.artists).1 dir).1 with
    | none => simp only [ha] at h; exact absurd h (by simp)
    | some album =>
      simp only [ha] at h
      cases ht : (finishSong song (resolveArtists idx song.artists).1
          (get_or_insert_album (resolveArtists idx song.artists).2
            song.album.name (resolveArtists idx song.artists).1 dir).1
          album.cover_url).track with
      | some t =>
        simp only [ht] at h
        injection h with h2
        refine ⟨(get_or_insert_album (resolveArtists idx song.artists).2
          song.album.name (resolveArtists idx song.artists).1 dir).2.songHeap, _,
          (congrArg (fun r => r.2.songHeap) h2).symm, (congrArg Prod.fst h2).symm⟩
      | none =>
        simp only [ht] at h
        injection h with h2
        refine ⟨(get_or_insert_album (resolveArtists idx song.artists).2
          song.album.name (resolveArtists idx song.artists).1 dir).2.songHeap, _,
          (congrArg (fun r => r.2.songHeap) h2).symm, (congrArg Prod.fst h2).symm⟩

/-- Observable facts of a successful media step: `previous_song_parent`
becomes the file's directory and `previous_album` names the album of the
song just appended to the arena. -/
theorem browseStep_media_facts (cfg : WalkCfg) (st st2 : WalkState) (p : MPath)
    (hm : isMediaPath cfg p = true)
    (h : browseStep cfg st (.ok p) = .ok st2) :
    st2.previous_song_parent = parentOf p ∧
    ∃ k aref, st2.previous_album = some k ∧
      0 < st2.index.songHeap.length ∧
      (st2.index.songHeap.getLast?).map Song.album = some aref ∧
      aref.unique_name = k := by
  simp only [browseStep, hm, if_true] at h
  cases hps : parseSong cfg.probe p cfg.base cfg.files_url with
  | error e => simp only [hps] at h; exact absurd h (by simp)
  | ok song =>
    simp only [hps] at h
    cases his : insert_song st.index song with
    | error e => simp only [his] at h; exact absurd h (by simp)
    | ok pr =>
      obtain ⟨sid, idx1⟩ := pr
      simp only [his] at h
      cases hel : idx1.songHeap[sid]? with
      | none => simp only [hel] at h; exact absurd h (by simp)
      | some inserted =>
        simp only [hel] at h
        obtain ⟨l1, l2, l3, l4, l5, l7, l8⟩ := flushCovers_ok cfg _ _ _ _ h
        obtain ⟨h0, s2, hshape, hsid⟩ := insert_song_heap_shape st.index song sid idx1 his
        have hins : inserted = s2 := by
          rw [hshape, hsid, List.getElem?_concat_length] at hel
          exact (Option.some.inj hel).symm
        have hlen1 : idx1.songHeap.length = h0.length + 1 := by
          rw [hshape, List.length_append, List.length_singleton]
        refine ⟨by rw [l4], inserted.album.unique_name, inserted.album, by rw [l5], ?_, ?_, rfl⟩
        · rw [l7]
          simp only [hlen1]
          omega
        · rw [List.getLast?_eq_getElem?, l7, hlen1, Nat.add_sub_cancel, l8, ← hsid, hel]
          rfl

/-- Observable facts of a cover step taken through the direct-attach
branch: the cover is logged against the current `previous_album`, and the
arena's songs keep their album references. -/
theorem browseStep_cover_attach (cfg : WalkCfg) (st st' : WalkState) (c : MPath)
    (hm : isMediaPath cfg c = false) (hc : isCoverPath cfg c = true)
    (hps : paths_eq st.previous_song_parent (parentOf c) = true)
    (h : browseStep cfg st (.ok c) = .ok st') :
    ∃ k, st.previous_album = some k ∧ st'.previous_album = some k ∧
      st'.attLog = st.attLog ++ [(k, c)] ∧
      st'.index.songHeap.length = st.index.songHeap.length ∧
      (∀ j : Nat, (st'.index.songHeap[j]?).map Song.album =
        (st.index.songHeap[j]?).map Song.album) := by
  simp only [browseStep, hm, hc, hps, Bool.false_eq_true, if_false, if_true] at h
  cases hpa : st.previous_album with
  | none => simp only [hpa] at h; exact absurd h (by simp)
  | some key =>
    simp only [hpa] at h
    cases hat : attachCover cfg st.index key c with
    | error e => simp only [hat] at h; exact absurd h (by simp)
    | ok idx2 =>
      simp only [hat] at h
      injection h with h2
      obtain ⟨a1, a2⟩ := attachCover_facts cfg st.index key c idx2 hat
      refine ⟨key, rfl, ?_, ?_, ?_, ?_⟩
      · rw [← h2]
      · rw [← h2]
      · rw [← h2]
        exact a1
      · intro j
        rw [← h2]
        exact a2 j

/-- One browse step preserves the cover-correlation invariant. -/
theorem browseStep_inv (cfg : WalkCfg) (processed : List WalkEntry) (st : WalkState)
    (e : WalkEntry) (st' : WalkState) (hinv : WalkInv cfg processed st)
    (h : browseStep cfg st e = .ok st') : WalkInv cfg (processed ++ [e]) st' := by
  obtain ⟨I1, I2, I3⟩ := hinv
  have W1 : ∀ kc ∈ st.attLog, ∃ p, WalkEntry.ok p ∈ processed ++ [e] ∧
      isMediaPath cfg p = true ∧ parentOf p = parentOf kc.2 := by
    intro kc hkc
    obtain ⟨p, h1, h2, h3⟩ := I1 kc hkc
    exact ⟨p, List.mem_append_left _ h1, h2, h3⟩
  have W2 : st.previous_album.isSome = true → ∃ p, WalkEntry.ok p ∈ processed ++ [e] ∧
      isMediaPath cfg p = true ∧ parentOf p = st.previous_song_parent := by
    intro hs
    obtain ⟨p, h1, h2, h3⟩ := I2 hs
    exact ⟨p, List.mem_append_left _ h1, h2, h3⟩
  cases e with
  | err =>
    simp only [browseStep] at h
    injection h with h2
    subst h2
    exact ⟨W1, W2, I3⟩
  | ok path =>
    have hfc : ∀ c ∈ (if paths_eq st.previous_parent (parentOf path) then
        st.found_covers else []), parentOf c = parentOf path := by
      by_cases hpe : paths_eq st.previous_parent (parentOf path)
      · rw [if_pos hpe]
        intro c hcc
        exact (I3 c hcc).symm.trans ((paths_eq_iff _ _).mp hpe)
      · rw [if_neg hpe]
        intro c hcc
        exact absurd hcc (List.not_mem_nil c)
    by_cases hm : isMediaPath cfg path
    · simp only [browseStep, hm, if_true] at h
      cases hps : parseSong cfg.probe path cfg.base cfg.files_url with
      | error e2 => simp only [hps] at h; exact absurd h (by simp)
      | ok song =>
        simp only [hps] at h
        cases his : insert_song st.index song with
        | error e2 => simp only [his] at h; exact absurd h (by simp)
        | ok pr =>
          obtain ⟨sid, idx1⟩ := pr
          simp only [his] at h
          cases hel : idx1.songHeap[sid]? with
          | none => simp only [hel] at h; exact absurd h (by simp)
          | some inserted =>
            simp only [hel] at h
            obtain ⟨l1, l2, l3, l4, l5, l7, l8⟩ := flushCovers_ok cfg _ _ _ _ h
            refine ⟨?_, ?_, ?_⟩
            · intro kc hkc
              rw [l1] at hkc
              rcases List.mem_append.mp hkc with hkc1 | hkc2
              · exact W1 kc hkc1
              · obtain ⟨c, hcin, hceq⟩ := List.mem_map.mp hkc2
                refine ⟨path, List.mem_append_right _ (List.mem_singleton.mpr rfl), hm, ?_⟩
                rw [← hceq]
                exact (hfc c hcin).symm
            · intro _
              refine ⟨path, List.mem_append_right _ (List.mem_singleton.mpr rfl), hm, ?_⟩
              rw [l4]
            · intro c hcc
              rw [l2] at hcc
              exact absurd hcc (List.not_mem_nil c)
    · by_cases hc : isCoverPath cfg path
      · by_cases hpe2 : paths_eq st.previous_song_parent (parentOf path)
        · simp only [browseStep, hm, hc, hpe2, if_true, if_false, Bool.false_eq_true] at h
          cases hpa : st.previous_album with
          | none => simp only [hpa] at h; exact absurd h (by simp)
          | some key =>
            simp only [hpa] at h
            cases hat : attachCover cfg st.index key path with
            | error e2 => simp only [hat] at h; exact absurd h (by simp)
            | ok idx2 =>
              simp only [hat] at h
              injection h with h2
              subst h2
              refine ⟨?_, ?_, ?_⟩
              · intro kc hkc
                rcases List.mem_append.mp hkc with hkc1 | hkc2
                · exact W1 kc hkc1
                · have hkc3 : kc = (key, path) := List.mem_singleton.mp hkc2
                  subst hkc3
                  obtain ⟨p, hp1, hp2, hp3⟩ := I2 (by rw [hpa]; rfl)
                  exact ⟨p, List.mem_append_left _ hp1, hp2,
                    hp3.trans ((paths_eq_iff _ _).mp hpe2)⟩
              · intro hs
                obtain ⟨p, hp1, hp2, hp3⟩ := W2 (by rw [hpa]; rfl)
                exact ⟨p, hp1, hp2, hp3⟩
              · intro c hcc
                exact (hfc c hcc).symm
        · simp only [browseStep, hm, hc, hpe2, if_true, if_false, Bool.false_eq_true] at h
          injection h with h2
          subst h2
          refine ⟨W1, W2, ?_⟩
          intro c hcc
          rcases List.mem_append.mp hcc with hcc1 | hcc2
          · exact (hfc c hcc1).symm
          · have hcc3 : c = path := List.mem_singleton.mp hcc2
            subst hcc3
            rfl
      · simp only [browseStep, hm, hc, if_false, Bool.false_eq_true] at h
        injection h with h2
        subst h2
        exact ⟨W1, W2, fun c hcc => (hfc c hcc).symm⟩

/-- The browse loop preserves the cover-correlation invariant. -/
theorem browse_inv (cfg : WalkCfg) :
    ∀ (entries : List WalkEntry) (st st' : WalkState) (processed : List WalkEntry),
      WalkInv cfg processed st → browse cfg st entries = .ok st' →
      WalkInv cfg (processed ++ entries) st' := by
  intro entries
  induction entries with
  | nil =>
    intro st st' processed hinv h
    simp only [browse] at h
    injection h with h2
    subst h2
    simpa using hinv
  | cons e rest ih =>
    intro st st' processed hinv h
    simp only [browse] at h
    cases hs : browseStep cfg st e with
    | error err => rw [hs] at h; exact absurd h (by simp)
    | ok st2 =>
      rw [hs] at h
      have h2 := ih st2 st' (processed ++ [e]) (browseStep_inv cfg processed st e st2 hinv hs) h
      simpa [List.append_assoc] using h2

/-- C7 (counterexample): browsing a song in `b/d` and then a cover in the
same directory — a cover that is never *followed* by a media file in its
directory — still attaches the cover to the song's album via the
`previous_song_parent` branch, so the claim's "never followed implies
attached to no album" direction is false on the code. -/
theorem cover_after_song_attached_counter :
    (browse cfgEx initState [.ok ["b", "d", "s.flac"], .ok ["b", "d", "cover.jpg"]]).toOption.map
      (fun st => ((alLookup st.index.albums "al").map Album.cover_url, st.attLog)) =
      some (some (some "f/d/cover.jpg"), [("al", ["b", "d", "cover.jpg"])]) := by
  decide

/-- C7 (amended): during the walk (i) a cover is only ever attached when a
media file was indexed from the same parent directory — so in a walk where
no media file of a directory is ever indexed, that directory's covers are
attached to no album (the pending buffer is reset whenever the parent
changes) — and (ii) a cover visited immediately after a media file in the
same directory is attached to that song's album. A cover *preceded* by a
media file of its directory is attached even when nothing follows it. -/
theorem cover_correlation_spec :
    (∀ (cfg : WalkCfg) (entries : List WalkEntry) (st' : WalkState),
      browse cfg initState entries = .ok st' →
      ∀ kc ∈ st'.attLog, ∃ p, WalkEntry.ok p ∈ entries ∧ isMediaPath cfg p = true ∧
        parentOf p = parentOf kc.2) ∧
    (∀ (cfg : WalkCfg) (st0 st3 : WalkState) (pre : List WalkEntry) (s c : MPath),
      isMediaPath cfg s = true → isMediaPath cfg c = false → isCoverPath cfg c = true →
      parentOf c = parentOf s →
      browse cfg st0 (pre ++ [.ok s, .ok c]) = .ok st3 →
      ∃ k aref, st3.previous_album = some k ∧
        st3.attLog.getLast? = some (k, c) ∧
        (st3.index.songHeap.getLast?).map Song.album = some aref ∧
        aref.unique_name = k) := by
  constructor
  · intro cfg entries st' hb kc hkc
    have hinv0 : WalkInv cfg [] initState := by
      refine ⟨?_, ?_, ?_⟩ <;> simp [initState, WalkInv]
    have hout := browse_inv cfg entries initState st' [] hinv0 hb
    rw [List.nil_append] at hout
    exact hout.1 kc hkc
  · intro cfg st0 st3 pre s c hms hmc hcc hpar hb
    rw [browse_append] at hb
    cases hb1 : browse cfg st0 pre with
    | error e => rw [hb1] at hb; exact absurd hb (by simp)
    | ok st1 =>
      simp only [hb1] at hb
      simp only [browse] at hb
      cases hs1 : browseStep cfg st1 (.ok s) with
      | error e => simp only [hs1] at hb; exact absurd hb (by simp)
      | ok st2 =>
        simp only [hs1] at hb
        cases hs2 : browseStep cfg st2 (.ok c) with
        | error e => simp only [hs2] at hb; exact absurd hb (by simp)
        | ok st3x =>
          simp only [hs2] at hb
          injection hb with hbe
          subst hbe
          obtain ⟨hsp, k, aref, hpa, hpos, hlast, haru⟩ :=
            browseStep_media_facts cfg st1 st2 s hms hs1
          have hpeq : paths_eq st2.previous_song_parent (parentOf c) = true := by
            rw [hsp, hpar]
            exact (paths_eq_iff _ _).mpr rfl
          obtain ⟨k2, hk2a, hk2b, hlog, hlen2, hmap2⟩ :=
            browseStep_cover_attach cfg st2 st3x c hmc hcc hpeq hs2
          have hkk : k2 = k := Option.some.inj (hk2a.symm.trans hpa)
          subst hkk
          refine ⟨k2, aref, hk2b, ?_, ?_, haru⟩
          · rw [hlog]
            exact List.getLast?_concat _
          · rw [List.getLast?_eq_getElem?, hlen2, hmap2]
            rw [List.getLast?_eq_getElem?] at hlast
            exact hlast

/-- C7 witness: `cover_correlation_spec` applied to the concrete
song-then-cover walk of `wSt7`. -/
theorem cover_correlation_spec_witness :
    wSt7.previous_album = some "al" ∧
    wSt7.attLog.getLast? = some ("al", ["b", "d", "cover.jpg"]) := by
  obtain ⟨k, aref, hk, hlog, hmap, haru⟩ := cover_correlation_spec.2 cfgEx initState wSt7 []
    ["b", "d", "s.flac"] ["b", "d", "cover.jpg"] (by decide) (by decide) (by decide) rfl
    (by decide)
  have hk2 : k = "al" :=
    (Option.some.inj ((show wSt7.previous_album = some "al" from rfl).symm.trans hk)).symm
  subst hk2
  exact ⟨hk, hlog⟩

/-! ## C10: the cover-url/cover-rating invariant -/

theorem rate_cover_pos (path : MPath) (r : Nat) (h : rate_cover path = .ok r) :
    1 ≤ r := by
  cases hf : fileName path with
  | none => simp only [rate_cover, hf] at h; exact absurd h (by simp)
  | some nm =>
    simp only [rate_cover, hf] at h
    injection h with h2
    subst h2
    by_cases hc : containsSubstr nm "cover" <;> by_cases hs : containsSubstr nm "small" <;>
      simp [hc, hs]

theorem alLookup_insert_cases (l : List (String × α)) (k k2 : String) (v w : α)
    (h : alLookup (alInsert l k v) k2 = some w) :
    (k2 = k ∧ w = v) ∨ alLookup l k2 = some w := by
  by_cases hk : k2 = k
  · subst hk
    rw [alLookup_insert_self] at h
    exact .inl ⟨rfl, (Option.some.inj h).symm⟩
  · rw [alLookup_insert_ne _ _ _ _ hk] at h
    exact .inr h

/-- The artist-accretion loop only touches the album's `artists` field:
both cover fields survive unchanged. -/
theorem accreteArtists_cover (arefs : List ArtistRef) :
    ∀ (album : Album) (key : String) (artists : List (String × Artist)),
      (accreteArtists album key arefs artists).1.cover_url = album.cover_url ∧
      (accreteArtists album key arefs artists).1.cover_rating = album.cover_rating := by
  induction arefs with
  | nil => intro album key artists; exact ⟨rfl, rfl⟩
  | cons a rest ih =>
    intro album key artists
    rw [accreteArtists, List.foldl_cons]
    by_cases hfind : ((album, artists).1.artists.find?
        (fun ar => ar.unique_name == a.unique_name)).isSome
    · simp only [if_pos hfind]
      exact ih album key artists
    · simp only [if_neg hfind]
      exact ih { album with artists := album.artists ++ [a] } key _

/-- Every album reachable after the `get_or_insert_album` probe loop hit a
display-name match keeps its cover fields from the pre-existing map. -/
theorem probeAlbum_inv (albums : List (String × Album)) (artists : List (String × Artist))
    (name base : String) (arefs : List ArtistRef) :
    ∀ (fuel i : Nat) (k : String) (albums2 : List (String × Album))
      (artists2 : List (String × Artist)),
      probeAlbum albums artists name base arefs i fuel = .inl (k, albums2, artists2) →
      ∀ (k2 : String) (a2 : Album), alLookup albums2 k2 = some a2 →
        ∃ a1, alLookup albums k2 = some a1 ∧
          a2.cover_url = a1.cover_url ∧ a2.cover_rating = a1.cover_rating := by
  intro fuel
  induction fuel with
  | zero =>
    intro i k albums2 artists2 h
    simp [probeAlbum] at h
  | succ fuel ih =>
    intro i k albums2 artists2 h k2 a2 hl
    cases hfound : alLookup albums (base ++ "-" ++ toString i) with
    | none => simp only [probeAlbum, hfound] at h; exact absurd h (by simp)
    | some found =>
      simp only [probeAlbum, hfound] at h
      by_cases hn : found.name = name
      · simp only [if_pos hn] at h
        injection h with h2
        have halb : albums2 = alInsert albums (base ++ "-" ++ toString i)
            (accreteArtists found (base ++ "-" ++ toString i) arefs artists).1 := by
          have := congrArg (fun t => t.2.1) h2
          exact this.symm
        rw [halb] at hl
        rcases alLookup_insert_cases _ _ _ _ _ hl with ⟨hk2, hw⟩ | hw
        · subst hk2
          subst hw
          obtain ⟨c1, c2⟩ := accreteArtists_cover arefs found (base ++ "-" ++ toString i) artists
          exact ⟨found, hfound, c1, c2⟩
        · exact ⟨a2, hw, rfl, rfl⟩
      · simp only [if_neg hn] at h
        exact ih (i + 1) k albums2 artists2 h k2 a2 hl

/-- Cover-field provenance through `get_or_insert_album`: every album in
the result either is the newly created one (unset cover, rating 0) or
keeps the cover fields of an album already present. -/
theorem goia_albums_pres (idx : Index) (name : String) (arefs : List ArtistRef)
    (path : MPath) :
    ∀ (k2 : String) (a2 : Album),
      alLookup (get_or_insert_album idx name arefs path).2.albums k2 = some a2 →
      (a2.cover_url = none ∧ a2.cover_rating = 0) ∨
      ∃ a1, alLookup idx.albums k2 = some a1 ∧
        a2.cover_url = a1.cover_url ∧ a2.cover_rating = a1.cover_rating := by
  intro k2 a2 hl
  cases hfound : alLookup idx.albums (sanitize name) with
  | none =>
    simp only [get_or_insert_album, hfound] at hl
    rcases alLookup_insert_cases _ _ _ _ _ hl with ⟨hk2, hw⟩ | hw
    · subst hw
      exact .inl ⟨rfl, rfl⟩
    · exact .inr ⟨a2, hw, rfl, rfl⟩
  | some found =>
    simp only [get_or_insert_album, hfound] at hl
    by_cases hn : found.name = name
    · simp only [if_pos hn] at hl
      rcases alLookup_insert_cases _ _ _ _ _ hl with ⟨hk2, hw⟩ | hw
      · subst hk2
        subst hw
        obtain ⟨c1, c2⟩ := accreteArtists_cover arefs found (sanitize name) idx.artists
        exact .inr ⟨found, hfound, c1, c2⟩
      · exact .inr ⟨a2, hw, rfl, rfl⟩
    · simp only [if_neg hn] at hl
      cases hprobe : probeAlbum idx.albums idx.artists name (sanitize name) arefs 1
          (idx.albums.length + 1) with
      | inl pr =>
        obtain ⟨k3, albums2, artists2⟩ := pr
        simp only [hprobe] at hl
        exact .inr (probeAlbum_inv idx.albums idx.artists name (sanitize name) arefs
          (idx.albums.length + 1) 1 k3 albums2 artists2 hprobe k2 a2 hl)
      | inr freeKey =>
        simp only [hprobe] at hl
        rcases alLookup_insert_cases _ _ _ _ _ hl with ⟨hk2, hw⟩ | hw
        · subst hw
          exact .inl ⟨rfl, rfl⟩
        · exact .inr ⟨a2, hw, rfl, rfl⟩

/-- `get_or_insert_artist` never touches the albums map. -/
theorem goiart_albums (idx : Index) (nm : String) :
    (get_or_insert_artist idx nm).2.albums = idx.albums := by
  cases h1 : alLookup idx.artists (sanitize nm) with
  | none => simp only [get_or_insert_artist, h1]
  | some a =>
    simp only [get_or_insert_artist, h1]
    by_cases h2 : a.name = nm
    · simp only [if_pos h2]
    · simp only [if_neg h2]
      cases hp : probeArtist idx.artists nm (sanitize nm) 1 (idx.artists.length + 1) with
      | inl u => simp only [hp]
      | inr fk => simp only [hp]

/-- The artist-resolution fold at the top of `insert_song` never touches
the albums map. -/
theorem resolveArtists_albums (arefs : List ArtistRef) :
    ∀ (init : List ArtistRef × Index),
      ((arefs.foldl (fun acc aref =>
        ((acc.1 ++ [{ aref with unique_name := (get_or_insert_artist acc.2 aref.name).1 }],
          (get_or_insert_artist acc.2 aref.name).2))) init).2).albums = init.2.albums := by
  induction arefs with
  | nil => intro init; rfl
  | cons a rest ih =>
    intro init
    rw [List.foldl_cons]
    rw [ih]
    exact goiart_albums init.2 a.name

/-- `insert_cover` preserves the invariant: on replacement it sets the
url and a rating of at least 1 together; otherwise it changes nothing. -/
theorem insert_cover_inv (album : Album) (heap : List Song) (path base : MPath)
    (fu : String) (album2 : Album) (heap2 : List Song)
    (h : insert_cover album heap path base fu = .ok (album2, heap2))
    (hinv : AlbumInv album) : AlbumInv album2 := by
  cases hr : rate_cover path with
  | error e => simp only [insert_cover, hr] at h; exact absurd h (by simp)
  | ok r =>
    simp only [insert_cover, hr] at h
    by_cases hlt : album.cover_rating < r
    · rw [if_pos hlt] at h
      cases hu : find_url path base fu with
      | error e => rw [hu] at h; exact absurd h (by simp)
      | ok u =>
        rw [hu] at h
        injection h with h2
        have ha2 : album2 = { album with cover_url := some u, cover_rating := r } :=
          (congrArg Prod.fst h2).symm
        subst ha2
        have hr1 := rate_cover_pos path r hr
        simp [AlbumInv]
        omega
    · rw [if_neg hlt] at h
      injection h with h2
      have ha2 : album2 = album := (congrArg Prod.fst h2).symm
      subst ha2
      exact hinv

/-- `insert_song` preserves the invariant on every album of the catalog:
it only rewrites the `songs`/`songs_by_name`/`tracked` fields of the
target album and creates albums with unset covers. -/
theorem insert_song_inv (idx : Index) (song : Song) (sid : Nat) (idx' : Index)
    (h : insert_song idx song = .ok (sid, idx'))
    (hinv : ∀ k a, alLookup idx.albums k = some a → AlbumInv a) :
    ∀ k a, alLookup idx'.albums k = some a → AlbumInv a := by
  intro k a hl
  have hres : (resolveArtists idx song.artists).2.albums = idx.albums :=
    resolveArtists_albums song.artists ([], idx)
  have hq := goia_albums_pres (resolveArtists idx song.artists).2 song.album.name
    (resolveArtists idx song.artists).1
  cases hp : parentOf song.path with
  | none => simp only [insert_song, hp] at h; exact absurd h (by simp)
  | some dir =>
    simp only [insert_song, hp] at h
    cases ha : alLookup (get_or_insert_album (resolveArtists idx song.artists).2
        song.album.name (resolveArtists idx song.artists).1 dir).2.albums
        (get_or_insert_album (resolveArtists idx song.artists).2
          song.album.name (resolveArtists idx song.artists).1 dir).1 with
    | none => rw [ha] at h; exact absurd h (by simp)
    | some album =>
      simp only [ha] at h
      have hainv : AlbumInv album := by
        rcases hq dir _ _ ha with ⟨c1, c2⟩ | ⟨a1, ha1, c1, c2⟩
        · simp [AlbumInv, c1, c2]
        · rw [hres] at ha1
          have := hinv _ _ ha1
          simp only [AlbumInv, c1, c2]
          exact this
      have hq2 := hq dir
      cases ht : (finishSong song (resolveArtists idx song.artists).1
          (get_or_insert_album (resolveArtists idx song.artists).2
            song.album.name (resolveArtists idx song.artists).1 dir).1
          album.cover_url).track with
      | some t =>
        simp only [ht] at h
        injection h with h2
        have halb : idx'.albums = alInsert (get_or_insert_album
            (resolveArtists idx song.artists).2 song.album.name
            (resolveArtists idx song.artists).1 dir).2.albums
            (get_or_insert_album (resolveArtists idx song.artists).2 song.album.name
              (resolveArtists idx song.artists).1 dir).1 _ :=
          (congrArg (fun r => r.2.albums) h2).symm
        rw [halb] at hl
        rcases alLookup_insert_cases _ _ _ _ _ hl with ⟨hk2, hw⟩ | hw
        · subst hw
          exact hainv
        · rcases hq2 _ _ hw with ⟨c1, c2⟩ | ⟨a1, ha1, c1, c2⟩
          · simp [AlbumInv, c1, c2]
          · rw [hres] at ha1
            have := hinv _ _ ha1
            simp only [AlbumInv, c1, c2]
            exact this
      | none =>
        simp only [ht] at h
        injection h with h2
        have halb : idx'.albums = alInsert (get_or_insert_album
            (resolveArtists idx song.artists).2 song.album.name
            (resolveArtists idx song.artists).1 dir).2.albums
            (get_or_insert_album (resolveArtists idx song.artists).2 song.album.name
              (resolveArtists idx song.artists).1 dir).1 _ :=
          (congrArg (fun r => r.2.albums) h2).symm
        rw [halb] at hl
        rcases alLookup_insert_cases _ _ _ _ _ hl with ⟨hk2, hw⟩ | hw
        · subst hw
          exact hainv
        · rcases hq2 _ _ hw with ⟨c1, c2⟩ | ⟨a1, ha1, c1, c2⟩
          · simp [AlbumInv, c1, c2]
          · rw [hres] at ha1
            have := hinv _ _ ha1
            simp only [AlbumInv, c1, c2]
            exact this

/-- C10: albums are created with `cover_url = none` and `cover_rating = 0`
(which satisfies the invariant vacuously); `get_or_insert_artist` never
touches the albums map; and the invariant "`cover_url` is set iff
`cover_rating > 0`" is preserved by `get_or_insert_album`, by
`insert_cover` (the only operation writing either field, always setting
both together with a rating of at least 1), and by `insert_song`. -/
theorem album_cover_invariant_spec :
    (∀ (idx : Index) (name : String) (arefs : List ArtistRef) (path : MPath),
      alLookup idx.albums (sanitize name) = none →
      alLookup (get_or_insert_album idx name arefs path).2.albums
        (get_or_insert_album idx name arefs path).1 =
        some ⟨name, sanitize name, arefs, [], [], none, 0, false, path⟩) ∧
    (∀ (idx : Index) (nm : String), (get_or_insert_artist idx nm).2.albums = idx.albums) ∧
    (∀ (idx : Index) (name : String) (arefs : List ArtistRef) (path : MPath),
      (∀ k a, alLookup idx.albums k = some a → AlbumInv a) →
      ∀ k a, alLookup (get_or_insert_album idx name arefs path).2.albums k = some a →
        AlbumInv a) ∧
    (∀ (album : Album) (heap : List Song) (path base : MPath) (fu : String)
        (album2 : Album) (heap2 : List Song),
      insert_cover album heap path base fu = .ok (album2, heap2) →
      AlbumInv album → AlbumInv album2) ∧
    (∀ (idx : Index) (song : Song) (sid : Nat) (idx' : Index),
      insert_song idx song = .ok (sid, idx') →
      (∀ k a, alLookup idx.albums k = some a → AlbumInv a) →
      ∀ k a, alLookup idx'.albums k = some a → AlbumInv a) := by
  refine ⟨?_, goiart_albums, ?_, insert_cover_inv, insert_song_inv⟩
  · intro idx name arefs path hnone
    simp only [get_or_insert_album, hnone]
    exact alLookup_insert_self _ _ _
  · intro idx name arefs path hinv k a hl
    rcases goia_albums_pres idx name arefs path k a hl with ⟨c1, c2⟩ | ⟨a1, ha1, c1, c2⟩
    · simp [AlbumInv, c1, c2]
    · have := hinv _ _ ha1
      simp only [AlbumInv, c1, c2]
      exact this

/-- C10 witness: `album_cover_invariant_spec` applied concretely — a
fresh album is created with unset cover fields, and attaching a rated
cover to the coverless `albumEx` yields a state satisfying the
invariant. -/
theorem album_cover_invariant_spec_witness :
    alLookup (get_or_insert_album emptyIndex "Al" [] ["b", "d"]).2.albums
      (get_or_insert_album emptyIndex "Al" [] ["b", "d"]).1 =
      some ⟨"Al", "al", [], [], [], none, 0, false, ["b", "d"]⟩ ∧
    AlbumInv ⟨"Al", "al", [], [some 0], [("t", 0)], some "f/d/cover.jpg", 101, false,
      ["b", "d"]⟩ := by
  constructor
  · have h := album_cover_invariant_spec.1 emptyIndex "Al" [] ["b", "d"] (by decide)
    rw [h]
    have hs : sanitize "Al" = "al" := by decide
    rw [hs]
  · have hic : insert_cover albumEx [songEx] ["b", "d", "cover.jpg"] ["b"] "f" =
        .ok (⟨"Al", "al", [], [some 0], [("t", 0)], some "f/d/cover.jpg", 101, false,
          ["b", "d"]⟩, [{ songEx with cover_url := some "f/d/cover.jpg" }]) := by
      decide
    exact album_cover_invariant_spec.2.2.2.1 albumEx [songEx] ["b", "d", "cover.jpg"]
      ["b"] "f" _ _ hic (by simp [AlbumInv, albumEx])

end MusicServer
